import Mathlib

/-!
Shallow embedding of the upload/analysis simulation implemented by the
`FileUpload` component (function `simulateFileProcessing`, its two
`setInterval` tickers, the `setTimeout` phase transition, and `removeFile`)
in `src/Frontend/src/components/Sidebar.tsx`.

State is the `files` array plus the multisets of live timers created by the
component: upload intervals, pending `setTimeout` phase transitions, and
analysis intervals, each keyed by the file name captured in its closure.
Random draws (`Math.random()`) become nondeterministic parameters of the
events, constrained by `Event.valid` to the exact ranges the source draws
from.  Progress values are rationals (the source uses JS floating point
arithmetic on values produced by `Math.random()`; rationals model the
ordered-field reasoning the code performs: `+`, `>= 100`, clamping).
-/

/-- Status of an uploaded file: the `status` field of `UploadedFile` in the
source, with values `'uploading' | 'analyzing' | 'completed' | 'error'`. -/
inductive Phase
  | uploading
  | analyzing
  | completed
  | error
deriving DecidableEq

/-- One entry of the `files` state array (`interface UploadedFile`). -/
structure UploadedFile where
  name : String
  size : String
  status : Phase
  progress : ℚ
  issues : Option ℕ
deriving DecidableEq

/-- Size label written by `simulateFileProcessing`:
`` `${Math.floor(Math.random() * 5 + 1)}.${Math.floor(Math.random() * 9)}MB` ``,
where `a` stands for `Math.floor(Math.random() * 5 + 1)` and `b` for
`Math.floor(Math.random() * 9)`. -/
def mkSize (a b : ℕ) : String := toString a ++ "." ++ toString b ++ "MB"

/-- The `newFile` record built at the top of `simulateFileProcessing`. -/
def mkFile (n : String) (a b : ℕ) : UploadedFile :=
  { name := n, size := mkSize a b, status := Phase.uploading, progress := 0,
    issues := none }

/-- Per-file body of the upload interval callback: if the file matches the
captured name and is still `'uploading'`, add the random increment `r`
(`Math.random() * 30`); on reaching 100 the progress is clamped to 100 and the
status stays `'uploading'` (the phase change happens later, in the
`setTimeout`). -/
def uploadTickFile (fileName : String) (r : ℚ) (f : UploadedFile) :
    UploadedFile :=
  if f.name = fileName ∧ f.status = Phase.uploading then
    if 100 ≤ f.progress + r then { f with progress := 100 }
    else { f with progress := f.progress + r }
  else f

/-- A file for which the upload interval callback takes the `newProgress >= 100`
branch (clearing the interval and scheduling the `setTimeout`). -/
def uploadCross (fileName : String) (r : ℚ) (f : UploadedFile) : Prop :=
  f.name = fileName ∧ f.status = Phase.uploading ∧ 100 ≤ f.progress + r

instance (fileName : String) (r : ℚ) (f : UploadedFile) :
    Decidable (uploadCross fileName r f) := by
  unfold uploadCross; infer_instance

/-- The `prev.map (...)` of one upload interval firing.  The callback draws a
fresh `Math.random()` for every file it visits, so the increment is indexed by
the position of the file in the array. -/
def uploadTickFiles (fileName : String) (inc : ℕ → ℚ) :
    ℕ → List UploadedFile → List UploadedFile
  | _, [] => []
  | i, f :: fs =>
      uploadTickFile fileName (inc i) f :: uploadTickFiles fileName inc (i + 1) fs

/-- How many files take the `newProgress >= 100` branch in one upload interval
firing: each such file calls `clearInterval(uploadInterval)` (idempotent on the
one interval that fired) and schedules one `setTimeout`. -/
def uploadCrossCount (fileName : String) (inc : ℕ → ℚ) :
    ℕ → List UploadedFile → ℕ
  | _, [] => 0
  | i, f :: fs =>
      (if uploadCross fileName (inc i) f then 1 else 0) +
        uploadCrossCount fileName inc (i + 1) fs

/-- Per-file body of the `setTimeout` callback: every file with the captured
name is set to `'analyzing'` with `progress` 0 (note: no status guard, and the
`issues` field is carried over by the spread). -/
def startAnalysisFile (fileName : String) (f : UploadedFile) : UploadedFile :=
  if f.name = fileName then { f with status := Phase.analyzing, progress := 0 }
  else f

/-- Per-file body of the analysis interval callback: matching `'analyzing'`
files gain the random increment `r` (`Math.random() * 25`); on reaching 100
the file becomes `'completed'` with progress clamped to 100 and `issues` set to
`Math.floor(Math.random() * 8)`, here the parameter `k`. -/
def analysisTickFile (fileName : String) (r : ℚ) (k : ℕ) (f : UploadedFile) :
    UploadedFile :=
  if f.name = fileName ∧ f.status = Phase.analyzing then
    if 100 ≤ f.progress + r then
      { f with status := Phase.completed, progress := 100, issues := some k }
    else { f with progress := f.progress + r }
  else f

/-- A file for which the analysis interval callback takes the completion
branch. -/
def analysisCross (fileName : String) (r : ℚ) (f : UploadedFile) : Prop :=
  f.name = fileName ∧ f.status = Phase.analyzing ∧ 100 ≤ f.progress + r

instance (fileName : String) (r : ℚ) (f : UploadedFile) :
    Decidable (analysisCross fileName r f) := by
  unfold analysisCross; infer_instance

/-- The `prev.map (...)` of one analysis interval firing, increments and issue
counts indexed by file position. -/
def analysisTickFiles (fileName : String) (inc : ℕ → ℚ) (iss : ℕ → ℕ) :
    ℕ → List UploadedFile → List UploadedFile
  | _, [] => []
  | i, f :: fs =>
      analysisTickFile fileName (inc i) (iss i) f ::
        analysisTickFiles fileName inc iss (i + 1) fs

/-- How many files take the completion branch in one analysis interval
firing. -/
def analysisCrossCount (fileName : String) (inc : ℕ → ℚ) :
    ℕ → List UploadedFile → ℕ
  | _, [] => 0
  | i, f :: fs =>
      (if analysisCross fileName (inc i) f then 1 else 0) +
        analysisCrossCount fileName inc (i + 1) fs

/-- `removeFile`: `setFiles(prev => prev.filter(file => file.name !== fileName))`. -/
def removeFile (fileName : String) (files : List UploadedFile) :
    List UploadedFile :=
  files.filter (fun f => f.name != fileName)

/-- The externally triggered or timer-driven events of the component.  A
`submit` is one call of `simulateFileProcessing` (with the two random draws of
the size label); the three timer events are one firing of, respectively, an
upload interval, a pending `setTimeout`, and an analysis interval, each
carrying its per-file random draws. -/
inductive Event
  | submit (n : String) (a b : ℕ)
  | uploadTick (n : String) (inc : ℕ → ℚ)
  | startAnalysis (n : String)
  | analysisTick (n : String) (inc : ℕ → ℚ) (iss : ℕ → ℕ)
  | removeEv (n : String)

/-- Component state: the `files` React state plus the live timers, each
represented by the file name captured in its closure, plus the log of
`onFileUpload` notifications. -/
structure SimState where
  files : List UploadedFile
  uploadIntervals : List String
  pendingTimeouts : List String
  analysisIntervals : List String
  uploadedLog : List String
deriving DecidableEq

/-- Initial state: `useState<UploadedFile[]>([])`, no timers. -/
def initState : SimState :=
  { files := [], uploadIntervals := [], pendingTimeouts := [],
    analysisIntervals := [], uploadedLog := [] }

/-- One event applied to the state, translated from the source:

* `submit` appends the new record, calls `onFileUpload(fileName)`, and starts
  an upload interval;
* an upload interval firing can only happen while that interval is live; it
  maps the tick over the files, and if any file crossed 100 the interval that
  fired is cleared (once) and one `setTimeout` per crossing file is scheduled;
* a `setTimeout` firing consumes one pending timeout, maps the unguarded
  `'analyzing'` reset over the files, and starts one analysis interval;
* an analysis interval firing maps the analysis tick; if any file completed,
  the interval that fired is cleared;
* `removeEv` is `removeFile`, which touches no timer. -/
def stepEv (e : Event) (s : SimState) : SimState :=
  match e with
  | .submit n a b =>
      { s with files := s.files ++ [mkFile n a b],
               uploadIntervals := n :: s.uploadIntervals,
               uploadedLog := s.uploadedLog ++ [n] }
  | .uploadTick n inc =>
      if n ∈ s.uploadIntervals then
        { s with files := uploadTickFiles n inc 0 s.files,
                 uploadIntervals :=
                   if 0 < uploadCrossCount n inc 0 s.files then
                     s.uploadIntervals.erase n
                   else s.uploadIntervals,
                 pendingTimeouts :=
                   s.pendingTimeouts ++
                     List.replicate (uploadCrossCount n inc 0 s.files) n }
      else s
  | .startAnalysis n =>
      if n ∈ s.pendingTimeouts then
        { s with files := s.files.map (startAnalysisFile n),
                 pendingTimeouts := s.pendingTimeouts.erase n,
                 analysisIntervals := n :: s.analysisIntervals }
      else s
  | .analysisTick n inc iss =>
      if n ∈ s.analysisIntervals then
        { s with files := analysisTickFiles n inc iss 0 s.files,
                 analysisIntervals :=
                   if 0 < analysisCrossCount n inc 0 s.files then
                     s.analysisIntervals.erase n
                   else s.analysisIntervals }
      else s
  | .removeEv n => { s with files := removeFile n s.files }

/-- Run a sequence of events from the initial state. -/
def run (tr : List Event) : SimState :=
  tr.foldl (fun s e => stepEv e s) initState

/-- Ranges of the random draws in the source: the size label digits come from
`Math.floor(Math.random() * 5 + 1)` and `Math.floor(Math.random() * 9)`, the
upload increments from `Math.random() * 30`, the analysis increments from
`Math.random() * 25`, and the issue count from `Math.floor(Math.random() * 8)`. -/
def Event.valid : Event → Prop
  | .submit _ a b => 1 ≤ a ∧ a ≤ 5 ∧ b ≤ 8
  | .uploadTick _ inc => ∀ i, 0 ≤ inc i ∧ inc i < 30
  | .startAnalysis _ => True
  | .analysisTick _ inc iss => (∀ i, 0 ≤ inc i ∧ inc i < 25) ∧ ∀ i, iss i < 8
  | .removeEv _ => True

/-- Every event of the trace draws its random values from the source's
ranges. -/
def ValidTrace (tr : List Event) : Prop := ∀ e ∈ tr, e.valid

/-- Names submitted by a trace, in order. -/
def submitsOf (tr : List Event) : List String :=
  tr.filterMap (fun e =>
    match e with
    | .submit n _ _ => some n
    | _ => none)

/-- No identifier is submitted twice in the trace. -/
def SubmittedOnce (tr : List Event) : Prop := (submitsOf tr).Nodup

/-- Phase transitions a single observable step may exhibit according to the
forward lifecycle: stay put, or advance by exactly one stage. -/
def stepOk (a b : Phase) : Prop :=
  a = b ∨ (a = Phase.uploading ∧ b = Phase.analyzing) ∨
    (a = Phase.analyzing ∧ b = Phase.completed)

instance (a b : Phase) : Decidable (stepOk a b) := by
  unfold stepOk; infer_instance

/-- Simp lemmas letting concrete executions reduce the status tests. -/
@[simp] theorem uploading_ne_analyzing : Phase.uploading ≠ Phase.analyzing := by decide

@[simp] theorem uploading_ne_completed : Phase.uploading ≠ Phase.completed := by decide

@[simp] theorem analyzing_ne_uploading : Phase.analyzing ≠ Phase.uploading := by decide

@[simp] theorem analyzing_ne_completed : Phase.analyzing ≠ Phase.completed := by decide

@[simp] theorem completed_ne_uploading : Phase.completed ≠ Phase.uploading := by decide

@[simp] theorem completed_ne_analyzing : Phase.completed ≠ Phase.analyzing := by decide

/-! ### Basic structural lemmas about one tick -/

theorem uploadTickFile_name (n : String) (r : ℚ) (f : UploadedFile) :
    (uploadTickFile n r f).name = f.name := by
  unfold uploadTickFile; split <;> [split <;> rfl; rfl]

theorem uploadTickFile_size (n : String) (r : ℚ) (f : UploadedFile) :
    (uploadTickFile n r f).size = f.size := by
  unfold uploadTickFile; split <;> [split <;> rfl; rfl]

theorem uploadTickFile_status (n : String) (r : ℚ) (f : UploadedFile) :
    (uploadTickFile n r f).status = f.status := by
  unfold uploadTickFile
  split
  · next h => split <;> simp [h.2]
  · rfl

theorem uploadTickFile_issues (n : String) (r : ℚ) (f : UploadedFile) :
    (uploadTickFile n r f).issues = f.issues := by
  unfold uploadTickFile; split <;> [split <;> rfl; rfl]

theorem uploadTickFile_eq_self (n : String) (r : ℚ) (f : UploadedFile)
    (h : ¬ (f.name = n ∧ f.status = Phase.uploading)) :
    uploadTickFile n r f = f := by
  unfold uploadTickFile; rw [if_neg h]

theorem analysisTickFile_name (n : String) (r : ℚ) (k : ℕ) (f : UploadedFile) :
    (analysisTickFile n r k f).name = f.name := by
  unfold analysisTickFile; split <;> [split <;> rfl; rfl]

theorem analysisTickFile_size (n : String) (r : ℚ) (k : ℕ) (f : UploadedFile) :
    (analysisTickFile n r k f).size = f.size := by
  unfold analysisTickFile; split <;> [split <;> rfl; rfl]

theorem analysisTickFile_eq_self (n : String) (r : ℚ) (k : ℕ) (f : UploadedFile)
    (h : ¬ (f.name = n ∧ f.status = Phase.analyzing)) :
    analysisTickFile n r k f = f := by
  unfold analysisTickFile; rw [if_neg h]

theorem startAnalysisFile_name (n : String) (f : UploadedFile) :
    (startAnalysisFile n f).name = f.name := by
  unfold startAnalysisFile; split <;> rfl

theorem startAnalysisFile_size (n : String) (f : UploadedFile) :
    (startAnalysisFile n f).size = f.size := by
  unfold startAnalysisFile; split <;> rfl

theorem startAnalysisFile_issues (n : String) (f : UploadedFile) :
    (startAnalysisFile n f).issues = f.issues := by
  unfold startAnalysisFile; split <;> rfl

theorem startAnalysisFile_eq_self (n : String) (f : UploadedFile)
    (h : ¬ f.name = n) : startAnalysisFile n f = f := by
  unfold startAnalysisFile; rw [if_neg h]

theorem uploadTickFiles_length (n : String) (inc : ℕ → ℚ) :
    ∀ (i : ℕ) (fs : List UploadedFile),
      (uploadTickFiles n inc i fs).length = fs.length
  | _, [] => rfl
  | i, _ :: fs => congrArg Nat.succ (uploadTickFiles_length n inc (i + 1) fs)

theorem uploadTickFiles_get (n : String) (inc : ℕ → ℚ) :
    ∀ (i : ℕ) (fs : List UploadedFile) (j : ℕ) (h : j < fs.length)
      (h' : j < (uploadTickFiles n inc i fs).length),
      (uploadTickFiles n inc i fs).get ⟨j, h'⟩ =
        uploadTickFile n (inc (i + j)) (fs.get ⟨j, h⟩)
  | i, f :: fs, 0, _, _ => by simp [uploadTickFiles]
  | i, f :: fs, j + 1, h, h' => by
      have := uploadTickFiles_get n inc (i + 1) fs j (Nat.lt_of_succ_lt_succ h)
        (by simpa [uploadTickFiles] using Nat.lt_of_succ_lt_succ h')
      simpa [uploadTickFiles, Nat.add_assoc, Nat.add_comm 1 j] using this

theorem analysisTickFiles_length (n : String) (inc : ℕ → ℚ) (iss : ℕ → ℕ) :
    ∀ (i : ℕ) (fs : List UploadedFile),
      (analysisTickFiles n inc iss i fs).length = fs.length
  | _, [] => rfl
  | i, _ :: fs => congrArg Nat.succ (analysisTickFiles_length n inc iss (i + 1) fs)

theorem analysisTickFiles_get (n : String) (inc : ℕ → ℚ) (iss : ℕ → ℕ) :
    ∀ (i : ℕ) (fs : List UploadedFile) (j : ℕ) (h : j < fs.length)
      (h' : j < (analysisTickFiles n inc iss i fs).length),
      (analysisTickFiles n inc iss i fs).get ⟨j, h'⟩ =
        analysisTickFile n (inc (i + j)) (iss (i + j)) (fs.get ⟨j, h⟩)
  | i, f :: fs, 0, _, _ => by simp [analysisTickFiles]
  | i, f :: fs, j + 1, h, h' => by
      have := analysisTickFiles_get n inc iss (i + 1) fs j
        (Nat.lt_of_succ_lt_succ h)
        (by simpa [analysisTickFiles] using Nat.lt_of_succ_lt_succ h')
      simpa [analysisTickFiles, Nat.add_assoc, Nat.add_comm 1 j] using this

theorem uploadTickFiles_eq_self (n : String) (inc : ℕ → ℚ) :
    ∀ (i : ℕ) (fs : List UploadedFile),
      (∀ f ∈ fs, ¬ (f.name = n ∧ f.status = Phase.uploading)) →
      uploadTickFiles n inc i fs = fs
  | _, [], _ => rfl
  | i, f :: fs, h => by
      rw [uploadTickFiles, uploadTickFile_eq_self _ _ _ (h f (by simp)),
        uploadTickFiles_eq_self n inc (i + 1) fs (fun g hg => h g (by simp [hg]))]

theorem analysisTickFiles_eq_self (n : String) (inc : ℕ → ℚ) (iss : ℕ → ℕ) :
    ∀ (i : ℕ) (fs : List UploadedFile),
      (∀ f ∈ fs, ¬ (f.name = n ∧ f.status = Phase.analyzing)) →
      analysisTickFiles n inc iss i fs = fs
  | _, [], _ => rfl
  | i, f :: fs, h => by
      rw [analysisTickFiles, analysisTickFile_eq_self _ _ _ _ (h f (by simp)),
        analysisTickFiles_eq_self n inc iss (i + 1) fs
          (fun g hg => h g (by simp [hg]))]

theorem startAnalysisFiles_eq_self (n : String) (fs : List UploadedFile)
    (h : ∀ f ∈ fs, ¬ f.name = n) : fs.map (startAnalysisFile n) = fs := by
  induction fs with
  | nil => rfl
  | cons f fs ih =>
      rw [List.map_cons, startAnalysisFile_eq_self _ _ (h f (by simp)),
        ih (fun g hg => h g (by simp [hg]))]

/-! ### Crossing counts and name bookkeeping -/

theorem uploadTickFiles_map_name (n : String) (inc : ℕ → ℚ) :
    ∀ (i : ℕ) (fs : List UploadedFile),
      (uploadTickFiles n inc i fs).map (fun f => f.name) =
        fs.map (fun f => f.name)
  | _, [] => rfl
  | i, f :: fs => by
      rw [uploadTickFiles, List.map_cons, List.map_cons, uploadTickFile_name,
        uploadTickFiles_map_name n inc (i + 1) fs]

theorem analysisTickFiles_map_name (n : String) (inc : ℕ → ℚ) (iss : ℕ → ℕ) :
    ∀ (i : ℕ) (fs : List UploadedFile),
      (analysisTickFiles n inc iss i fs).map (fun f => f.name) =
        fs.map (fun f => f.name)
  | _, [] => rfl
  | i, f :: fs => by
      rw [analysisTickFiles, List.map_cons, List.map_cons, analysisTickFile_name,
        analysisTickFiles_map_name n inc iss (i + 1) fs]

theorem startAnalysisFiles_map_name (n : String) (fs : List UploadedFile) :
    (fs.map (startAnalysisFile n)).map (fun f => f.name) =
      fs.map (fun f => f.name) := by
  rw [List.map_map]
  exact List.map_congr_left fun f _ => startAnalysisFile_name n f

theorem uploadCrossCount_eq_zero (n : String) (inc : ℕ → ℚ) :
    ∀ (i : ℕ) (fs : List UploadedFile),
      uploadCrossCount n inc i fs = 0 ↔
        ∀ (j : ℕ) (h : j < fs.length),
          ¬ uploadCross n (inc (i + j)) (fs.get ⟨j, h⟩)
  | i, [] => by simp [uploadCrossCount]
  | i, f :: fs => by
      have ih := uploadCrossCount_eq_zero n inc (i + 1) fs
      by_cases hc : uploadCross n (inc i) f
      · rw [uploadCrossCount, if_pos hc]
        constructor
        · omega
        · intro h
          exact absurd (by simpa using hc) (by simpa using h 0 (by simp))
      · rw [uploadCrossCount, if_neg hc, Nat.zero_add, ih]
        constructor
        · intro h j hj
          match j with
          | 0 => simpa using hc
          | j + 1 =>
              have := h j (Nat.lt_of_succ_lt_succ hj)
              simpa [Nat.add_assoc, Nat.add_comm 1 j] using this
        · intro h j hj
          have := h (j + 1) (Nat.succ_lt_succ hj)
          simpa [Nat.add_assoc, Nat.add_comm 1 j] using this

theorem analysisCrossCount_eq_zero (n : String) (inc : ℕ → ℚ) :
    ∀ (i : ℕ) (fs : List UploadedFile),
      analysisCrossCount n inc i fs = 0 ↔
        ∀ (j : ℕ) (h : j < fs.length),
          ¬ analysisCross n (inc (i + j)) (fs.get ⟨j, h⟩)
  | i, [] => by simp [analysisCrossCount]
  | i, f :: fs => by
      have ih := analysisCrossCount_eq_zero n inc (i + 1) fs
      by_cases hc : analysisCross n (inc i) f
      · rw [analysisCrossCount, if_pos hc]
        constructor
        · omega
        · intro h
          exact absurd (by simpa using hc) (by simpa using h 0 (by simp))
      · rw [analysisCrossCount, if_neg hc, Nat.zero_add, ih]
        constructor
        · intro h j hj
          match j with
          | 0 => simpa using hc
          | j + 1 =>
              have := h j (Nat.lt_of_succ_lt_succ hj)
              simpa [Nat.add_assoc, Nat.add_comm 1 j] using this
        · intro h j hj
          have := h (j + 1) (Nat.succ_lt_succ hj)
          simpa [Nat.add_assoc, Nat.add_comm 1 j] using this

theorem name_inj_of_nodup (fs : List UploadedFile)
    (h : (fs.map (fun f => f.name)).Nodup) (j j' : ℕ) (hj : j < fs.length)
    (hj' : j' < fs.length)
    (he : (fs.get ⟨j, hj⟩).name = (fs.get ⟨j', hj'⟩).name) : j = j' := by
  have hjm : j < (fs.map (fun f => f.name)).length := by simpa using hj
  have hjm' : j' < (fs.map (fun f => f.name)).length := by simpa using hj'
  have hget : (fs.map (fun f => f.name)).get ⟨j, hjm⟩ =
      (fs.map (fun f => f.name)).get ⟨j', hjm'⟩ := by
    simpa using he
  have := (List.Nodup.get_inj_iff h).mp hget
  exact congrArg Fin.val this

theorem uploadCrossCount_le_one (n : String) (inc : ℕ → ℚ) :
    ∀ (i : ℕ) (fs : List UploadedFile),
      (fs.map (fun f => f.name)).Nodup → uploadCrossCount n inc i fs ≤ 1
  | _, [], _ => by simp [uploadCrossCount]
  | i, f :: fs, h => by
      rw [List.map_cons, List.nodup_cons] at h
      by_cases hc : uploadCross n (inc i) f
      · rw [uploadCrossCount, if_pos hc]
        have h0 : uploadCrossCount n inc (i + 1) fs = 0 := by
          rw [uploadCrossCount_eq_zero]
          intro j hj hcc
          exact h.1 (by
            rw [hc.1, ← hcc.1]
            exact List.mem_map_of_mem _ (List.get_mem fs j hj))
        omega
      · rw [uploadCrossCount, if_neg hc, Nat.zero_add]
        exact uploadCrossCount_le_one n inc (i + 1) fs h.2

theorem analysisCrossCount_le_one (n : String) (inc : ℕ → ℚ) :
    ∀ (i : ℕ) (fs : List UploadedFile),
      (fs.map (fun f => f.name)).Nodup → analysisCrossCount n inc i fs ≤ 1
  | _, [], _ => by simp [analysisCrossCount]
  | i, f :: fs, h => by
      rw [List.map_cons, List.nodup_cons] at h
      by_cases hc : analysisCross n (inc i) f
      · rw [analysisCrossCount, if_pos hc]
        have h0 : analysisCrossCount n inc (i + 1) fs = 0 := by
          rw [analysisCrossCount_eq_zero]
          intro j hj hcc
          exact h.1 (by
            rw [hc.1, ← hcc.1]
            exact List.mem_map_of_mem _ (List.get_mem fs j hj))
        omega
      · rw [analysisCrossCount, if_neg hc, Nat.zero_add]
        exact analysisCrossCount_le_one n inc (i + 1) fs h.2

/-! ### The bookkeeping invariant for traces without duplicate submissions -/

/-- Timer multiplicities for the name of record `f`. -/
def timersOk (s : SimState) (f : UploadedFile) (u p a : ℕ) : Prop :=
  s.uploadIntervals.count f.name = u ∧ s.pendingTimeouts.count f.name = p ∧
    s.analysisIntervals.count f.name = a

/-- Configuration of a single live record and of the timers bearing its name,
when no identifier is ever submitted twice: an uploading record below 100 owns
exactly its upload interval; an uploading record at 100 owns exactly its
pending `setTimeout`; an analyzing record owns exactly its analysis interval;
a completed record owns no timer and carries its issue count. -/
def recConf (s : SimState) (f : UploadedFile) : Prop :=
  0 ≤ f.progress ∧ f.progress ≤ 100 ∧
    ((f.status = Phase.uploading ∧ f.issues = none ∧
        ((f.progress < 100 ∧ timersOk s f 1 0 0) ∨
         (f.progress = 100 ∧ timersOk s f 0 1 0))) ∨
     (f.status = Phase.analyzing ∧ f.issues = none ∧ f.progress < 100 ∧
        timersOk s f 0 0 1) ∨
     (f.status = Phase.completed ∧ f.progress = 100 ∧
        (∃ k, f.issues = some k ∧ k < 8) ∧ timersOk s f 0 0 0))

/-- Invariant of reachable states of traces whose submitted names are distinct
and contained in `sub`. -/
def SimInv (sub : List String) (s : SimState) : Prop :=
  (s.files.map (fun f => f.name)).Nodup ∧
    (∀ f ∈ s.files, recConf s f) ∧
    (∀ f ∈ s.files, f.name ∈ sub) ∧
    (∀ n ∈ s.uploadIntervals, n ∈ sub) ∧
    (∀ n ∈ s.pendingTimeouts, n ∈ sub) ∧
    (∀ n ∈ s.analysisIntervals, n ∈ sub)

theorem recConf_of_counts (s s' : SimState) (f : UploadedFile)
    (hu : s'.uploadIntervals.count f.name = s.uploadIntervals.count f.name)
    (hp : s'.pendingTimeouts.count f.name = s.pendingTimeouts.count f.name)
    (ha : s'.analysisIntervals.count f.name = s.analysisIntervals.count f.name)
    (h : recConf s f) : recConf s' f := by
  unfold recConf timersOk at h ⊢
  rw [hu, hp, ha]
  exact h

theorem inv_submit (sub : List String) (s : SimState) (n : String) (a b : ℕ)
    (hI : SimInv sub s) (hfresh : n ∉ sub) :
    SimInv (sub ++ [n]) (stepEv (Event.submit n a b) s) := by
  obtain ⟨hN, hC, hFs, hU, hP, hA⟩ := hI
  have hnotfile : ∀ f ∈ s.files, f.name ≠ n := by
    intro f hf he
    exact hfresh (he ▸ hFs f hf)
  have hnotup : n ∉ s.uploadIntervals := fun h => hfresh (hU n h)
  have hnotpend : n ∉ s.pendingTimeouts := fun h => hfresh (hP n h)
  have hnotan : n ∉ s.analysisIntervals := fun h => hfresh (hA n h)
  refine ⟨?_, ?_, ?_, ?_, ?_, ?_⟩
  · simp only [stepEv, List.map_append]
    rw [List.nodup_append]
    refine ⟨hN, List.nodup_singleton _, ?_⟩
    intro m hm hm'
    simp only [mkFile, List.map_cons, List.map_nil, List.mem_singleton] at hm'
    obtain ⟨f, hf, rfl⟩ := List.mem_map.mp hm
    exact hnotfile f hf hm'
  · intro f hf
    simp only [stepEv] at hf
    rcases List.mem_append.mp hf with hf | hf
    · refine recConf_of_counts s _ f ?_ rfl rfl (hC f hf)
      simp only [stepEv]
      exact List.count_cons_of_ne (fun h => hnotfile f hf h) _
    · have hf' : f = mkFile n a b := by simpa using hf
      subst hf'
      refine ⟨le_refl 0, by norm_num [mkFile],
        Or.inl ⟨rfl, rfl, Or.inl ⟨by norm_num [mkFile], ?_, ?_, ?_⟩⟩⟩
      · simp only [stepEv, mkFile]
        rw [List.count_cons_self, List.count_eq_zero.mpr hnotup]
      · simpa [stepEv, mkFile] using List.count_eq_zero.mpr hnotpend
      · simpa [stepEv, mkFile] using List.count_eq_zero.mpr hnotan
  · intro f hf
    simp only [stepEv] at hf
    rcases List.mem_append.mp hf with hf | hf
    · exact List.mem_append_left _ (hFs f hf)
    · have hf' : f = mkFile n a b := by simpa using hf
      subst hf'
      simp [mkFile]
  · intro m hm
    simp only [stepEv, List.mem_cons] at hm
    rcases hm with rfl | hm
    · simp
    · exact List.mem_append_left _ (hU m hm)
  · intro m hm
    exact List.mem_append_left _ (hP m hm)
  · intro m hm
    exact List.mem_append_left _ (hA m hm)

theorem inv_remove (sub : List String) (s : SimState) (n : String)
    (hI : SimInv sub s) : SimInv sub (stepEv (Event.removeEv n) s) := by
  obtain ⟨hN, hC, hFs, hU, hP, hA⟩ := hI
  have hsub : stepEv (Event.removeEv n) s = { s with files := removeFile n s.files } := rfl
  have hmem : ∀ f ∈ removeFile n s.files, f ∈ s.files := by
    intro f hf
    exact List.mem_of_mem_filter hf
  refine ⟨?_, ?_, ?_, hU, hP, hA⟩
  · exact List.Nodup.sublist (List.Sublist.map _ (List.filter_sublist s.files)) hN
  · intro f hf
    exact recConf_of_counts s _ f rfl rfl rfl (hC f (hmem f hf))
  · intro f hf
    exact hFs f (hmem f hf)

theorem inv_startAnalysis (sub : List String) (s : SimState) (n : String)
    (hI : SimInv sub s) : SimInv sub (stepEv (Event.startAnalysis n) s) := by
  obtain ⟨hN, hC, hFs, hU, hP, hA⟩ := hI
  by_cases hn : n ∈ s.pendingTimeouts
  · simp only [stepEv, if_pos hn]
    refine ⟨?_, ?_, ?_, hU, ?_, ?_⟩
    · rw [startAnalysisFiles_map_name]
      exact hN
    · intro f' hf'
      obtain ⟨f, hf, rfl⟩ := List.mem_map.mp hf'
      by_cases hname : f.name = n
      · obtain ⟨h0, h100, hbr⟩ := hC f hf
        have hpos : 0 < s.pendingTimeouts.count f.name := by
          rw [hname]
          exact List.count_pos_iff.mpr hn
        rcases hbr with ⟨hst, hiss, ⟨hlt, _, hp0, _⟩ | ⟨hp100, hu0, hp1, ha0⟩⟩ |
          ⟨hst, hiss, hlt, _, hp0, _⟩ | ⟨hst, hp100, hiss, _, hp0, _⟩
        · omega
        · have hf' : startAnalysisFile n f =
              { f with status := Phase.analyzing, progress := 0 } := by
            unfold startAnalysisFile
            rw [if_pos hname]
          rw [hf']
          refine ⟨le_refl 0, by norm_num,
            Or.inr (Or.inl ⟨rfl, hiss, by norm_num, ?_, ?_, ?_⟩)⟩
          · simpa using hu0
          · show (s.pendingTimeouts.erase n).count f.name = 0
            rw [hname, List.count_erase_self]
            rw [hname] at hp1
            omega
          · show (n :: s.analysisIntervals).count f.name = 1
            rw [hname, List.count_cons_self]
            rw [hname] at ha0
            omega
        · omega
        · omega
      · rw [startAnalysisFile_eq_self n f hname]
        refine recConf_of_counts s _ f rfl ?_ ?_ (hC f hf)
        · exact List.count_erase_of_ne (fun h => hname h) _
        · exact List.count_cons_of_ne (fun h => hname h) _
    · intro f' hf'
      obtain ⟨f, hf, rfl⟩ := List.mem_map.mp hf'
      rw [startAnalysisFile_name]
      exact hFs f hf
    · intro m hm
      exact hP m (List.mem_of_mem_erase hm)
    · intro m hm
      rcases List.mem_cons.mp hm with rfl | hm
      · exact hP m hn
      · exact hA m hm
  · simp only [stepEv, if_neg hn]
    exact ⟨hN, hC, hFs, hU, hP, hA⟩

theorem inv_uploadTick (sub : List String) (s : SimState) (n : String)
    (inc : ℕ → ℚ) (hv : ∀ i, 0 ≤ inc i ∧ inc i < 30)
    (hI : SimInv sub s) : SimInv sub (stepEv (Event.uploadTick n inc) s) := by
  obtain ⟨hN, hC, hFs, hU, hP, hA⟩ := hI
  by_cases hn : n ∈ s.uploadIntervals
  · simp only [stepEv, if_pos hn]
    refine ⟨?_, ?_, ?_, ?_, ?_, hA⟩
    · rw [uploadTickFiles_map_name]
      exact hN
    · intro f' hf'
      obtain ⟨⟨j, hj'⟩, heq⟩ := List.mem_iff_get.mp hf'
      have hj : j < s.files.length := by
        rw [← uploadTickFiles_length n inc 0 s.files]
        exact hj'
      rw [uploadTickFiles_get n inc 0 s.files j hj hj', Nat.zero_add] at heq
      subst heq
      have hfmem : s.files.get ⟨j, hj⟩ ∈ s.files := List.get_mem _ _ _
      obtain ⟨h0, h100, hbr⟩ := hC _ hfmem
      by_cases hcond : (s.files.get ⟨j, hj⟩).name = n ∧
          (s.files.get ⟨j, hj⟩).status = Phase.uploading
      · obtain ⟨hname, hst⟩ := hcond
        have hpos : 0 < s.uploadIntervals.count (s.files.get ⟨j, hj⟩).name := by
          rw [hname]
          exact List.count_pos_iff.mpr hn
        rcases hbr with ⟨_, hiss, ⟨hlt, hu1, hp0, ha0⟩ | ⟨_, hu0, _, _⟩⟩ |
          ⟨hst', _, _, _, _, _⟩ | ⟨hst', _, _, _, _, _⟩
        · by_cases hcr : 100 ≤ (s.files.get ⟨j, hj⟩).progress + inc j
          · have hcross : uploadCross n (inc j) (s.files.get ⟨j, hj⟩) :=
              ⟨hname, hst, hcr⟩
            have hkpos : 0 < uploadCrossCount n inc 0 s.files := by
              rcases Nat.eq_zero_or_pos (uploadCrossCount n inc 0 s.files) with h | h
              · exact absurd (by simpa using hcross)
                  ((uploadCrossCount_eq_zero n inc 0 s.files).mp h j hj)
              · exact h
            have hk1 : uploadCrossCount n inc 0 s.files = 1 :=
              Nat.le_antisymm (uploadCrossCount_le_one n inc 0 s.files hN) hkpos
            have htick : uploadTickFile n (inc j) (s.files.get ⟨j, hj⟩) =
                { s.files.get ⟨j, hj⟩ with progress := 100 } := by
              unfold uploadTickFile
              rw [if_pos ⟨hname, hst⟩, if_pos hcr]
            rw [htick]
            refine ⟨by norm_num, le_refl _,
              Or.inl ⟨hst, hiss, Or.inr ⟨rfl, ?_, ?_, ?_⟩⟩⟩
            · show (if 0 < uploadCrossCount n inc 0 s.files then
                  s.uploadIntervals.erase n else s.uploadIntervals).count
                  (s.files.get ⟨j, hj⟩).name = 0
              rw [if_pos hkpos, hname, List.count_erase_self]
              rw [hname] at hu1
              omega
            · show (s.pendingTimeouts ++
                  List.replicate (uploadCrossCount n inc 0 s.files) n).count
                  (s.files.get ⟨j, hj⟩).name = 1
              rw [List.count_append, hk1, hname, List.count_replicate_self]
              rw [hname] at hp0
              omega
            · exact ha0
          · have hk0 : uploadCrossCount n inc 0 s.files = 0 := by
              rw [uploadCrossCount_eq_zero]
              intro j' hj'' hcc
              have hjj : j' = j := by
                refine name_inj_of_nodup s.files hN j' j hj'' hj ?_
                rw [hcc.1, hname]
              subst hjj
              exact hcr (by simpa using hcc.2.2)
            have htick : uploadTickFile n (inc j) (s.files.get ⟨j, hj⟩) =
                { s.files.get ⟨j, hj⟩ with
                    progress := (s.files.get ⟨j, hj⟩).progress + inc j } := by
              unfold uploadTickFile
              rw [if_pos ⟨hname, hst⟩, if_neg hcr]
            rw [htick]
            refine ⟨add_nonneg h0 (hv j).1, le_of_lt (lt_of_not_le hcr),
              Or.inl ⟨hst, hiss, Or.inl ⟨lt_of_not_le hcr, ?_, ?_, ?_⟩⟩⟩
            · show (if 0 < uploadCrossCount n inc 0 s.files then
                  s.uploadIntervals.erase n else s.uploadIntervals).count
                  (s.files.get ⟨j, hj⟩).name = 1
              rw [hk0]
              exact hu1
            · show (s.pendingTimeouts ++
                  List.replicate (uploadCrossCount n inc 0 s.files) n).count
                  (s.files.get ⟨j, hj⟩).name = 0
              rw [List.count_append, hk0]
              simpa using hp0
            · exact ha0
        · omega
        · rw [hst] at hst'
          exact absurd hst' (by decide)
        · rw [hst] at hst'
          exact absurd hst' (by decide)
      · rw [uploadTickFile_eq_self n (inc j) _ hcond]
        by_cases hname : (s.files.get ⟨j, hj⟩).name = n
        · exfalso
          have hpos : 0 < s.uploadIntervals.count (s.files.get ⟨j, hj⟩).name := by
            rw [hname]
            exact List.count_pos_iff.mpr hn
          rcases hbr with ⟨hst, _, _⟩ | ⟨_, _, _, hu0, _, _⟩ | ⟨_, _, _, hu0, _, _⟩
          · exact hcond ⟨hname, hst⟩
          · omega
          · omega
        · refine recConf_of_counts s _ _ ?_ ?_ rfl ⟨h0, h100, hbr⟩
          · show (if 0 < uploadCrossCount n inc 0 s.files then
                s.uploadIntervals.erase n else s.uploadIntervals).count
                (s.files.get ⟨j, hj⟩).name = s.uploadIntervals.count
                (s.files.get ⟨j, hj⟩).name
            split
            · exact List.count_erase_of_ne hname _
            · rfl
          · show (s.pendingTimeouts ++
                List.replicate (uploadCrossCount n inc 0 s.files) n).count
                (s.files.get ⟨j, hj⟩).name =
                s.pendingTimeouts.count (s.files.get ⟨j, hj⟩).name
            rw [List.count_append, List.count_replicate,
              if_neg (by simp only [beq_iff_eq]; exact fun h => hname h.symm)]
            omega
    · intro f' hf'
      have hmem : f'.name ∈ (uploadTickFiles n inc 0 s.files).map
          (fun f => f.name) := List.mem_map_of_mem _ hf'
      rw [uploadTickFiles_map_name] at hmem
      obtain ⟨f, hf, he⟩ := List.mem_map.mp hmem
      exact he ▸ hFs f hf
    · intro m hm
      have hm' : m ∈ (if 0 < uploadCrossCount n inc 0 s.files then
          s.uploadIntervals.erase n else s.uploadIntervals) := hm
      by_cases hk : 0 < uploadCrossCount n inc 0 s.files
      · rw [if_pos hk] at hm'
        exact hU m (List.mem_of_mem_erase hm')
      · rw [if_neg hk] at hm'
        exact hU m hm'
    · intro m hm
      have hm' : m ∈ s.pendingTimeouts ++
          List.replicate (uploadCrossCount n inc 0 s.files) n := hm
      rcases List.mem_append.mp hm' with h | h
      · exact hP m h
      · rw [List.eq_of_mem_replicate h]
        exact hU n hn
  · simp only [stepEv, if_neg hn]
    exact ⟨hN, hC, hFs, hU, hP, hA⟩

theorem inv_analysisTick (sub : List String) (s : SimState) (n : String)
    (inc : ℕ → ℚ) (iss : ℕ → ℕ) (hv : ∀ i, 0 ≤ inc i ∧ inc i < 25)
    (hiss : ∀ i, iss i < 8) (hI : SimInv sub s) :
    SimInv sub (stepEv (Event.analysisTick n inc iss) s) := by
  obtain ⟨hN, hC, hFs, hU, hP, hA⟩ := hI
  by_cases hn : n ∈ s.analysisIntervals
  · simp only [stepEv, if_pos hn]
    refine ⟨?_, ?_, ?_, hU, hP, ?_⟩
    · rw [analysisTickFiles_map_name]
      exact hN
    · intro f' hf'
      obtain ⟨⟨j, hj'⟩, heq⟩ := List.mem_iff_get.mp hf'
      have hj : j < s.files.length := by
        rw [← analysisTickFiles_length n inc iss 0 s.files]
        exact hj'
      rw [analysisTickFiles_get n inc iss 0 s.files j hj hj', Nat.zero_add] at heq
      subst heq
      have hfmem : s.files.get ⟨j, hj⟩ ∈ s.files := List.get_mem _ _ _
      obtain ⟨h0, h100, hbr⟩ := hC _ hfmem
      by_cases hcond : (s.files.get ⟨j, hj⟩).name = n ∧
          (s.files.get ⟨j, hj⟩).status = Phase.analyzing
      · obtain ⟨hname, hst⟩ := hcond
        have hpos : 0 < s.analysisIntervals.count (s.files.get ⟨j, hj⟩).name := by
          rw [hname]
          exact List.count_pos_iff.mpr hn
        rcases hbr with ⟨hst', _, _⟩ | ⟨_, hiss', hlt, hu0, hp0, ha1⟩ |
          ⟨hst', _, _, _, _, _⟩
        · rw [hst] at hst'
          exact absurd hst' (by decide)
        · by_cases hcr : 100 ≤ (s.files.get ⟨j, hj⟩).progress + inc j
          · have hcross : analysisCross n (inc j) (s.files.get ⟨j, hj⟩) :=
              ⟨hname, hst, hcr⟩
            have hkpos : 0 < analysisCrossCount n inc 0 s.files := by
              rcases Nat.eq_zero_or_pos (analysisCrossCount n inc 0 s.files) with h | h
              · exact absurd (by simpa using hcross)
                  ((analysisCrossCount_eq_zero n inc 0 s.files).mp h j hj)
              · exact h
            have htick : analysisTickFile n (inc j) (iss j) (s.files.get ⟨j, hj⟩) =
                { s.files.get ⟨j, hj⟩ with
                    status := Phase.completed, progress := 100,
                    issues := some (iss j) } := by
              unfold analysisTickFile
              rw [if_pos ⟨hname, hst⟩, if_pos hcr]
            rw [htick]
            refine ⟨by norm_num, le_refl _,
              Or.inr (Or.inr ⟨rfl, rfl, ⟨iss j, rfl, hiss j⟩, hu0, hp0, ?_⟩)⟩
            show (if 0 < analysisCrossCount n inc 0 s.files then
                s.analysisIntervals.erase n else s.analysisIntervals).count
                (s.files.get ⟨j, hj⟩).name = 0
            rw [if_pos hkpos, hname, List.count_erase_self]
            rw [hname] at ha1
            omega
          · have hk0 : analysisCrossCount n inc 0 s.files = 0 := by
              rw [analysisCrossCount_eq_zero]
              intro j' hj'' hcc
              have hjj : j' = j := by
                refine name_inj_of_nodup s.files hN j' j hj'' hj ?_
                rw [hcc.1, hname]
              subst hjj
              exact hcr (by simpa using hcc.2.2)
            have htick : analysisTickFile n (inc j) (iss j) (s.files.get ⟨j, hj⟩) =
                { s.files.get ⟨j, hj⟩ with
                    progress := (s.files.get ⟨j, hj⟩).progress + inc j } := by
              unfold analysisTickFile
              rw [if_pos ⟨hname, hst⟩, if_neg hcr]
            rw [htick]
            refine ⟨add_nonneg h0 (hv j).1, le_of_lt (lt_of_not_le hcr),
              Or.inr (Or.inl ⟨hst, hiss', lt_of_not_le hcr, hu0, hp0, ?_⟩)⟩
            show (if 0 < analysisCrossCount n inc 0 s.files then
                s.analysisIntervals.erase n else s.analysisIntervals).count
                (s.files.get ⟨j, hj⟩).name = 1
            rw [hk0]
            exact ha1
        · rw [hst] at hst'
          exact absurd hst' (by decide)
      · rw [analysisTickFile_eq_self n (inc j) (iss j) _ hcond]
        by_cases hname : (s.files.get ⟨j, hj⟩).name = n
        · exfalso
          have hpos : 0 < s.analysisIntervals.count (s.files.get ⟨j, hj⟩).name := by
            rw [hname]
            exact List.count_pos_iff.mpr hn
          rcases hbr with ⟨_, _, ⟨_, _, _, ha0⟩ | ⟨_, _, _, ha0⟩⟩ |
            ⟨hst, _, _, _, _, _⟩ | ⟨_, _, _, _, _, ha0⟩
          · omega
          · omega
          · exact hcond ⟨hname, hst⟩
          · omega
        · refine recConf_of_counts s _ _ rfl rfl ?_ ⟨h0, h100, hbr⟩
          show (if 0 < analysisCrossCount n inc 0 s.files then
              s.analysisIntervals.erase n else s.analysisIntervals).count
              (s.files.get ⟨j, hj⟩).name =
              s.analysisIntervals.count (s.files.get ⟨j, hj⟩).name
          split
          · exact List.count_erase_of_ne hname _
          · rfl
    · intro f' hf'
      have hmem : f'.name ∈ (analysisTickFiles n inc iss 0 s.files).map
          (fun f => f.name) := List.mem_map_of_mem _ hf'
      rw [analysisTickFiles_map_name] at hmem
      obtain ⟨f, hf, he⟩ := List.mem_map.mp hmem
      exact he ▸ hFs f hf
    · intro m hm
      have hm' : m ∈ (if 0 < analysisCrossCount n inc 0 s.files then
          s.analysisIntervals.erase n else s.analysisIntervals) := hm
      by_cases hk : 0 < analysisCrossCount n inc 0 s.files
      · rw [if_pos hk] at hm'
        exact hA m (List.mem_of_mem_erase hm')
      · rw [if_neg hk] at hm'
        exact hA m hm'
  · simp only [stepEv, if_neg hn]
    exact ⟨hN, hC, hFs, hU, hP, hA⟩

theorem inv_step (sub : List String) (s : SimState) (e : Event)
    (hI : SimInv sub s) (hv : e.valid)
    (hfresh : ∀ n a b, e = Event.submit n a b → n ∉ sub) :
    SimInv (sub ++ submitsOf [e]) (stepEv e s) := by
  cases e with
  | submit n a b =>
      rw [show submitsOf [Event.submit n a b] = [n] from rfl]
      exact inv_submit sub s n a b hI (hfresh n a b rfl)
  | uploadTick n inc =>
      rw [show submitsOf [Event.uploadTick n inc] = [] from rfl, List.append_nil]
      exact inv_uploadTick sub s n inc hv hI
  | startAnalysis n =>
      rw [show submitsOf [Event.startAnalysis n] = [] from rfl, List.append_nil]
      exact inv_startAnalysis sub s n hI
  | analysisTick n inc iss =>
      rw [show submitsOf [Event.analysisTick n inc iss] = [] from rfl,
        List.append_nil]
      exact inv_analysisTick sub s n inc iss hv.1 hv.2 hI
  | removeEv n =>
      rw [show submitsOf [Event.removeEv n] = [] from rfl, List.append_nil]
      exact inv_remove sub s n hI

theorem run_snoc (tr : List Event) (e : Event) :
    run (tr ++ [e]) = stepEv e (run tr) := by
  simp [run, List.foldl_append]

theorem submitsOf_append (tr₁ tr₂ : List Event) :
    submitsOf (tr₁ ++ tr₂) = submitsOf tr₁ ++ submitsOf tr₂ := by
  simp [submitsOf, List.filterMap_append]

/-- Every state reached by a trace with valid random draws and no duplicate
submission satisfies the bookkeeping invariant. -/
theorem inv_run (tr : List Event) (hv : ValidTrace tr) (hs : SubmittedOnce tr) :
    SimInv (submitsOf tr) (run tr) := by
  induction tr using List.reverseRecOn with
  | nil =>
      refine ⟨?_, ?_, ?_, ?_, ?_, ?_⟩ <;> simp [run, initState, submitsOf]
  | append_singleton tr e ih =>
      have hv1 : ValidTrace tr := fun x hx => hv x (List.mem_append_left _ hx)
      have hve : e.valid := hv e (by simp)
      have hsplit : (submitsOf tr).Nodup ∧ (submitsOf [e]).Nodup ∧
          (submitsOf tr).Disjoint (submitsOf [e]) := by
        have := hs
        unfold SubmittedOnce at this
        rw [submitsOf_append, List.nodup_append] at this
        exact this
      have hs1 : SubmittedOnce tr := hsplit.1
      have hfresh : ∀ n a b, e = Event.submit n a b → n ∉ submitsOf tr := by
        intro n a b he hmem
        subst he
        exact hsplit.2.2 hmem (by simp [submitsOf])
      rw [run_snoc, submitsOf_append]
      exact inv_step _ _ e (ih hv1 hs1) hve hfresh

/-! ### Optional-indexing characterizations and trace prefix facts -/

theorem uploadTickFiles_getElem (n : String) (inc : ℕ → ℚ) :
    ∀ (i : ℕ) (fs : List UploadedFile) (j : ℕ),
      (uploadTickFiles n inc i fs)[j]? =
        Option.map (uploadTickFile n (inc (i + j))) fs[j]?
  | _, [], j => by simp [uploadTickFiles]
  | i, f :: fs, 0 => by simp [uploadTickFiles]
  | i, f :: fs, j + 1 => by
      have := uploadTickFiles_getElem n inc (i + 1) fs j
      simpa [uploadTickFiles, Nat.add_assoc, Nat.add_comm 1 j] using this

theorem analysisTickFiles_getElem (n : String) (inc : ℕ → ℚ) (iss : ℕ → ℕ) :
    ∀ (i : ℕ) (fs : List UploadedFile) (j : ℕ),
      (analysisTickFiles n inc iss i fs)[j]? =
        Option.map (analysisTickFile n (inc (i + j)) (iss (i + j))) fs[j]?
  | _, [], j => by simp [analysisTickFiles]
  | i, f :: fs, 0 => by simp [analysisTickFiles]
  | i, f :: fs, j + 1 => by
      have := analysisTickFiles_getElem n inc iss (i + 1) fs j
      simpa [analysisTickFiles, Nat.add_assoc, Nat.add_comm 1 j] using this

theorem validTrace_snoc (tr : List Event) (e : Event)
    (h : ValidTrace (tr ++ [e])) : ValidTrace tr ∧ e.valid :=
  ⟨fun x hx => h x (List.mem_append_left _ hx), h e (by simp)⟩

theorem submittedOnce_snoc (tr : List Event) (e : Event)
    (h : SubmittedOnce (tr ++ [e])) : SubmittedOnce tr := by
  unfold SubmittedOnce at h ⊢
  rw [submitsOf_append, List.nodup_append] at h
  exact h.1

/-! ### Concrete events used by the scenario traces -/

/-- Submitting the identifier `"A"` with size draws giving `1.0MB`. -/
def evSubmitA : Event := Event.submit "A" 1 0

/-- One firing of the upload interval for `"A"`, every visited file drawing
the increment 29. -/
def evUpTick : Event := Event.uploadTick "A" (fun _ => 29)

/-- One firing of the analysis interval for `"A"`, every visited file drawing
the increment 24 and the issue count 3. -/
def evAnTick : Event := Event.analysisTick "A" (fun _ => 24) (fun _ => 3)

/-- One firing of a pending upload-to-analysis `setTimeout` for `"A"`. -/
def evStartA : Event := Event.startAnalysis "A"

/-- One `removeFile("A")` call. -/
def evRemoveA : Event := Event.removeEv "A"

theorem evSubmitA_valid : evSubmitA.valid := by
  simp only [evSubmitA, Event.valid]
  norm_num

theorem evUpTick_valid : evUpTick.valid := by
  simp only [evUpTick, Event.valid]
  intro i
  norm_num

theorem evAnTick_valid : evAnTick.valid := by
  simp only [evAnTick, Event.valid]
  refine ⟨fun i => ?_, fun i => ?_⟩ <;> norm_num

theorem evStartA_valid : evStartA.valid := trivial

theorem evRemoveA_valid : evRemoveA.valid := trivial

/-- Submission of `"A"` followed by enough upload ticks to cross 100 (the
fourth tick reaches 87 + 29 = 116): leaves the record uploading at 100 with
one pending `setTimeout`. -/
def trPre : List Event := [evSubmitA, evUpTick, evUpTick, evUpTick, evUpTick]

/-- Complete one record for `"A"`, then submit `"A"` again and drive the second
record through its upload phase; its `setTimeout` is pending at the end. -/
def trDupA : List Event :=
  trPre ++ [evStartA, evAnTick, evAnTick, evAnTick, evAnTick, evAnTick,
    evSubmitA, evUpTick, evUpTick, evUpTick, evUpTick]

/-- One record for `"A"` driven to the analysis phase at progress 96. -/
def trClean : List Event :=
  trPre ++ [evStartA, evAnTick, evAnTick, evAnTick, evAnTick]

/-- Cross the upload phase, remove the record (its `setTimeout` survives),
resubmit `"A"`, cross again (a second `setTimeout` becomes pending), start the
analysis via one timeout and tick it to 48; the stale timeout is still
pending. -/
def trStale : List Event :=
  trPre ++ [evRemoveA, evSubmitA, evUpTick, evUpTick, evUpTick, evUpTick,
    evStartA, evAnTick, evAnTick]

theorem run_trDupA :
    (run trDupA).files =
      [{ name := "A", size := mkSize 1 0, status := Phase.completed,
         progress := 100, issues := some 3 },
       { name := "A", size := mkSize 1 0, status := Phase.uploading,
         progress := 100, issues := none }] := by
  norm_num [run, stepEv, trDupA, trPre, evSubmitA, evUpTick, evAnTick, evStartA,
    evRemoveA, initState, mkFile, uploadTickFiles, uploadTickFile, uploadCross,
    uploadCrossCount, analysisTickFiles, analysisTickFile, analysisCross,
    analysisCrossCount, startAnalysisFile, removeFile]

theorem run_trDupA_startA :
    (run (trDupA ++ [evStartA])).files =
      [{ name := "A", size := mkSize 1 0, status := Phase.analyzing,
         progress := 0, issues := some 3 },
       { name := "A", size := mkSize 1 0, status := Phase.analyzing,
         progress := 0, issues := none }] := by
  norm_num [run, stepEv, trDupA, trPre, evSubmitA, evUpTick, evAnTick, evStartA,
    evRemoveA, initState, mkFile, uploadTickFiles, uploadTickFile, uploadCross,
    uploadCrossCount, analysisTickFiles, analysisTickFile, analysisCross,
    analysisCrossCount, startAnalysisFile, removeFile]

theorem run_subAA :
    (run [evSubmitA, evSubmitA]).files =
      [{ name := "A", size := mkSize 1 0, status := Phase.uploading,
         progress := 0, issues := none },
       { name := "A", size := mkSize 1 0, status := Phase.uploading,
         progress := 0, issues := none }] := by
  norm_num [run, stepEv, evSubmitA, initState, mkFile]

theorem run_subAA_tick :
    (run ([evSubmitA, evSubmitA] ++ [evUpTick])).files =
      [{ name := "A", size := mkSize 1 0, status := Phase.uploading,
         progress := 29, issues := none },
       { name := "A", size := mkSize 1 0, status := Phase.uploading,
         progress := 29, issues := none }] := by
  norm_num [run, stepEv, evSubmitA, evUpTick, initState, mkFile,
    uploadTickFiles, uploadTickFile, uploadCross, uploadCrossCount]

theorem run_ghost :
    (run (trPre ++ [Event.removeEv "A"] ++ [evSubmitA])).files =
      [{ name := "A", size := mkSize 1 0, status := Phase.uploading,
         progress := 0, issues := none }] := by
  norm_num [run, stepEv, trPre, evSubmitA, evUpTick, initState, mkFile,
    uploadTickFiles, uploadTickFile, uploadCross, uploadCrossCount, removeFile]

theorem run_ghost_startA :
    (run (trPre ++ [Event.removeEv "A"] ++ [evSubmitA] ++ [evStartA])).files =
      [{ name := "A", size := mkSize 1 0, status := Phase.analyzing,
         progress := 0, issues := none }] := by
  norm_num [run, stepEv, trPre, evSubmitA, evUpTick, evStartA, initState,
    mkFile, uploadTickFiles, uploadTickFile, uploadCross, uploadCrossCount,
    startAnalysisFile, removeFile]

theorem run_trClean :
    (run trClean).files =
      [{ name := "A", size := mkSize 1 0, status := Phase.analyzing,
         progress := 96, issues := none }] := by
  norm_num [run, stepEv, trClean, trPre, evSubmitA, evUpTick, evAnTick,
    evStartA, initState, mkFile, uploadTickFiles, uploadTickFile, uploadCross,
    uploadCrossCount, analysisTickFiles, analysisTickFile, analysisCross,
    analysisCrossCount, startAnalysisFile]

theorem run_trClean_tick :
    (run (trClean ++ [evAnTick])).files =
      [{ name := "A", size := mkSize 1 0, status := Phase.completed,
         progress := 100, issues := some 3 }] := by
  norm_num [run, stepEv, trClean, trPre, evSubmitA, evUpTick, evAnTick,
    evStartA, initState, mkFile, uploadTickFiles, uploadTickFile, uploadCross,
    uploadCrossCount, analysisTickFiles, analysisTickFile, analysisCross,
    analysisCrossCount, startAnalysisFile]

theorem run_trStale :
    (run trStale).files =
      [{ name := "A", size := mkSize 1 0, status := Phase.analyzing,
         progress := 48, issues := none }] := by
  norm_num [run, stepEv, trStale, trPre, evSubmitA, evUpTick, evAnTick,
    evStartA, evRemoveA, initState, mkFile, uploadTickFiles, uploadTickFile,
    uploadCross, uploadCrossCount, analysisTickFiles, analysisTickFile,
    analysisCross, analysisCrossCount, startAnalysisFile, removeFile]

theorem run_trStale_startA :
    (run (trStale ++ [evStartA])).files =
      [{ name := "A", size := mkSize 1 0, status := Phase.analyzing,
         progress := 0, issues := none }] := by
  norm_num [run, stepEv, trStale, trPre, evSubmitA, evUpTick, evAnTick,
    evStartA, evRemoveA, initState, mkFile, uploadTickFiles, uploadTickFile,
    uploadCross, uploadCrossCount, analysisTickFiles, analysisTickFile,
    analysisCross, analysisCrossCount, startAnalysisFile, removeFile]

theorem valid_of_consts (tr : List Event)
    (h : ∀ e ∈ tr, e = evSubmitA ∨ e = evUpTick ∨ e = evAnTick ∨
      e = evStartA ∨ e = Event.removeEv "A") : ValidTrace tr := by
  intro e he
  rcases h e he with rfl | rfl | rfl | rfl | rfl
  exacts [evSubmitA_valid, evUpTick_valid, evAnTick_valid, evStartA_valid,
    evRemoveA_valid]

theorem vDupA : ValidTrace (trDupA ++ [evStartA]) := by
  refine valid_of_consts _ ?_
  intro e he
  simp only [trDupA, trPre, evRemoveA, List.mem_append, List.mem_cons,
    List.not_mem_nil, or_false] at he
  tauto

theorem vSubAA : ValidTrace ([evSubmitA, evSubmitA] ++ [evUpTick]) := by
  refine valid_of_consts _ ?_
  intro e he
  simp only [List.mem_append, List.mem_cons, List.not_mem_nil, or_false] at he
  tauto

theorem vGhost :
    ValidTrace (trPre ++ [Event.removeEv "A"] ++ [evSubmitA] ++ [evStartA]) := by
  refine valid_of_consts _ ?_
  intro e he
  simp only [trPre, List.mem_append, List.mem_cons, List.not_mem_nil,
    or_false] at he
  tauto

theorem vClean : ValidTrace (trClean ++ [evAnTick]) := by
  refine valid_of_consts _ ?_
  intro e he
  simp only [trClean, trPre, List.mem_append, List.mem_cons,
    List.not_mem_nil, or_false] at he
  tauto

theorem vStale : ValidTrace (trStale ++ [evStartA]) := by
  refine valid_of_consts _ ?_
  intro e he
  simp only [trStale, trPre, evRemoveA, List.mem_append, List.mem_cons,
    List.not_mem_nil, or_false] at he
  tauto

theorem vSubTick : ValidTrace ([evSubmitA] ++ [evUpTick]) := by
  refine valid_of_consts _ ?_
  intro e he
  simp only [List.mem_append, List.mem_cons, List.not_mem_nil, or_false] at he
  tauto

theorem onceSubTick : SubmittedOnce ([evSubmitA] ++ [evUpTick]) := by
  simp [SubmittedOnce, submitsOf, evSubmitA, evUpTick]

theorem run_subA :
    (run [evSubmitA]).files =
      [⟨"A", mkSize 1 0, Phase.uploading, 0, none⟩] := by
  norm_num [run, stepEv, evSubmitA, initState, mkFile]

theorem run_subA_tick :
    (run ([evSubmitA] ++ [evUpTick])).files =
      [⟨"A", mkSize 1 0, Phase.uploading, 29, none⟩] := by
  norm_num [run, stepEv, evSubmitA, evUpTick, initState, mkFile,
    uploadTickFiles, uploadTickFile, uploadCross, uploadCrossCount]

theorem run_trPre :
    (run trPre).files =
      [⟨"A", mkSize 1 0, Phase.uploading, 100, none⟩] := by
  norm_num [run, stepEv, trPre, evSubmitA, evUpTick, initState, mkFile,
    uploadTickFiles, uploadTickFile, uploadCross, uploadCrossCount]

theorem run_trPre_startA :
    (run (trPre ++ [evStartA])).files =
      [⟨"A", mkSize 1 0, Phase.analyzing, 0, none⟩] := by
  norm_num [run, stepEv, trPre, evSubmitA, evUpTick, evStartA, initState,
    mkFile, uploadTickFiles, uploadTickFile, uploadCross, uploadCrossCount,
    startAnalysisFile]

theorem vPre : ValidTrace (trPre ++ [evStartA]) := by
  refine valid_of_consts _ ?_
  intro e he
  simp only [trPre, List.mem_append, List.mem_cons, List.not_mem_nil,
    or_false] at he
  tauto

theorem oncePre : SubmittedOnce (trPre ++ [evStartA]) := by
  simp [SubmittedOnce, submitsOf, trPre, evSubmitA, evUpTick, evStartA]

/-! ### Projections of one step -/

theorem stepEv_submit_files (s : SimState) (n : String) (a b : ℕ) :
    (stepEv (Event.submit n a b) s).files = s.files ++ [mkFile n a b] := rfl

theorem stepEv_uploadTick_files (s : SimState) (n : String) (inc : ℕ → ℚ) :
    (stepEv (Event.uploadTick n inc) s).files =
      if n ∈ s.uploadIntervals then uploadTickFiles n inc 0 s.files
      else s.files := by
  simp only [stepEv]
  split <;> rfl

theorem stepEv_startAnalysis_files (s : SimState) (n : String) :
    (stepEv (Event.startAnalysis n) s).files =
      if n ∈ s.pendingTimeouts then s.files.map (startAnalysisFile n)
      else s.files := by
  simp only [stepEv]
  split <;> rfl

theorem stepEv_analysisTick_files (s : SimState) (n : String) (inc : ℕ → ℚ)
    (iss : ℕ → ℕ) :
    (stepEv (Event.analysisTick n inc iss) s).files =
      if n ∈ s.analysisIntervals then analysisTickFiles n inc iss 0 s.files
      else s.files := by
  simp only [stepEv]
  split <;> rfl

theorem stepEv_remove_files (s : SimState) (n : String) :
    (stepEv (Event.removeEv n) s).files = removeFile n s.files := rfl

/-! ### Claim C1 -/

/-- Claim C1 as stated: on every valid trace (duplicate submissions included),
each event other than a removal moves the phase of the record at any position
forward by at most one stage of Uploading → Analyzing → Completed. -/
def PhasesAlwaysAdvance : Prop :=
  ∀ (tr : List Event) (e : Event), ValidTrace (tr ++ [e]) →
    (∀ n, e ≠ Event.removeEv n) →
    ∀ (i : ℕ) (f f' : UploadedFile),
      (run tr).files[i]? = some f →
      (run (tr ++ [e])).files[i]? = some f' →
      stepOk f.status f'.status

/-- C1 fails on the code as stated: after `trDupA` the first record of `"A"`
is Completed while the duplicate submission's `setTimeout` is pending; that
timeout fires and moves the Completed record back to Analyzing. -/
theorem c1_counterexample : ¬ PhasesAlwaysAdvance := by
  intro h
  have h0 : (run trDupA).files[0]? =
      some { name := "A", size := mkSize 1 0, status := Phase.completed,
             progress := 100, issues := some 3 } := by
    rw [run_trDupA]
    rfl
  have h0' : (run (trDupA ++ [evStartA])).files[0]? =
      some { name := "A", size := mkSize 1 0, status := Phase.analyzing,
             progress := 0, issues := some 3 } := by
    rw [run_trDupA_startA]
    rfl
  have hko := h trDupA evStartA vDupA (fun n hn => Event.noConfusion hn)
    0 _ _ h0 h0'
  exact absurd hko (by decide)

/-- C1 amended: provided no identifier is submitted twice in the trace, every
non-removal event moves each record's phase forward by at most one stage, a
removal only deletes records, and records at fresh positions start Uploading. -/
theorem c1_phase_forward (tr : List Event) (e : Event)
    (hv : ValidTrace (tr ++ [e])) (hs : SubmittedOnce (tr ++ [e])) :
    ((∀ n, e ≠ Event.removeEv n) →
      ∀ (i : ℕ) (f f' : UploadedFile),
        (run tr).files[i]? = some f →
        (run (tr ++ [e])).files[i]? = some f' →
        stepOk f.status f'.status) ∧
    (∀ n, e = Event.removeEv n →
      ∀ f' ∈ (run (tr ++ [e])).files, f' ∈ (run tr).files) ∧
    (∀ (i : ℕ) (f' : UploadedFile),
      (run (tr ++ [e])).files[i]? = some f' → (run tr).files.length ≤ i →
      f'.status = Phase.uploading) := by
  obtain ⟨hv1, hve⟩ := validTrace_snoc tr e hv
  have hs1 : SubmittedOnce tr := submittedOnce_snoc tr e hs
  obtain ⟨hN, hC, hFs, hU, hP, hA⟩ := inv_run tr hv1 hs1
  rw [run_snoc]
  cases e with
  | submit n a b =>
      refine ⟨?_, ?_, ?_⟩
      · intro _ i f f' hf hf'
        rw [stepEv_submit_files] at hf'
        obtain ⟨hi, _⟩ := List.getElem?_eq_some.mp hf
        rw [List.getElem?_append_left hi, hf] at hf'
        cases hf'
        exact Or.inl rfl
      · intro n' he
        exact Event.noConfusion he
      · intro i f' hf' hlen
        rw [stepEv_submit_files, List.getElem?_append_right hlen] at hf'
        obtain ⟨hi, _⟩ := List.getElem?_eq_some.mp hf'
        have h0 : i - (run tr).files.length = 0 := by
          simp only [List.length_singleton] at hi
          omega
        rw [h0] at hf'
        cases hf'
        rfl
  | uploadTick n inc =>
      refine ⟨?_, ?_, ?_⟩
      · intro _ i f f' hf hf'
        rw [stepEv_uploadTick_files] at hf'
        by_cases hg : n ∈ (run tr).uploadIntervals
        · rw [if_pos hg, uploadTickFiles_getElem, Nat.zero_add, hf,
            Option.map_some'] at hf'
          cases hf'
          exact Or.inl (uploadTickFile_status n (inc i) f).symm
        · rw [if_neg hg, hf] at hf'
          cases hf'
          exact Or.inl rfl
      · intro n' he
        exact Event.noConfusion he
      · intro i f' hf' hlen
        exfalso
        rw [stepEv_uploadTick_files] at hf'
        obtain ⟨hi, _⟩ := List.getElem?_eq_some.mp hf'
        by_cases hg : n ∈ (run tr).uploadIntervals
        · rw [if_pos hg, uploadTickFiles_length] at hi
          omega
        · rw [if_neg hg] at hi
          omega
  | startAnalysis n =>
      refine ⟨?_, ?_, ?_⟩
      · intro _ i f f' hf hf'
        rw [stepEv_startAnalysis_files] at hf'
        by_cases hg : n ∈ (run tr).pendingTimeouts
        · rw [if_pos hg, List.getElem?_map, hf, Option.map_some'] at hf'
          cases hf'
          by_cases hname : f.name = n
          · have hf2 : startAnalysisFile n f =
                { f with status := Phase.analyzing, progress := 0 } := by
              unfold startAnalysisFile
              rw [if_pos hname]
            rw [hf2]
            have hfmem : f ∈ (run tr).files := List.getElem?_mem hf
            obtain ⟨_, _, hbr⟩ := hC f hfmem
            have hpos : 0 < (run tr).pendingTimeouts.count f.name := by
              rw [hname]
              exact List.count_pos_iff.mpr hg
            rcases hbr with ⟨hst, _, ⟨_, _, hp0, _⟩ | ⟨_, _, _, _⟩⟩ |
              ⟨_, _, _, _, hp0, _⟩ | ⟨_, _, _, _, hp0, _⟩
            · omega
            · exact Or.inr (Or.inl ⟨hst, rfl⟩)
            · omega
            · omega
          · rw [startAnalysisFile_eq_self n f hname]
            exact Or.inl rfl
        · rw [if_neg hg, hf] at hf'
          cases hf'
          exact Or.inl rfl
      · intro n' he
        exact Event.noConfusion he
      · intro i f' hf' hlen
        exfalso
        rw [stepEv_startAnalysis_files] at hf'
        obtain ⟨hi, _⟩ := List.getElem?_eq_some.mp hf'
        by_cases hg : n ∈ (run tr).pendingTimeouts
        · rw [if_pos hg, List.length_map] at hi
          omega
        · rw [if_neg hg] at hi
          omega
  | analysisTick n inc iss =>
      refine ⟨?_, ?_, ?_⟩
      · intro _ i f f' hf hf'
        rw [stepEv_analysisTick_files] at hf'
        by_cases hg : n ∈ (run tr).analysisIntervals
        · rw [if_pos hg, analysisTickFiles_getElem, Nat.zero_add, hf,
            Option.map_some'] at hf'
          cases hf'
          by_cases hcond : f.name = n ∧ f.status = Phase.analyzing
          · by_cases hcr : 100 ≤ f.progress + inc i
            · have hf2 : analysisTickFile n (inc i) (iss i) f =
                  { f with
                      status := Phase.completed, progress := 100,
                      issues := some (iss i) } := by
                unfold analysisTickFile
                rw [if_pos hcond, if_pos hcr]
              rw [hf2]
              exact Or.inr (Or.inr ⟨hcond.2, rfl⟩)
            · have hf2 : analysisTickFile n (inc i) (iss i) f =
                  { f with progress := f.progress + inc i } := by
                unfold analysisTickFile
                rw [if_pos hcond, if_neg hcr]
              rw [hf2]
              exact Or.inl rfl
          · rw [analysisTickFile_eq_self n (inc i) (iss i) f hcond]
            exact Or.inl rfl
        · rw [if_neg hg, hf] at hf'
          cases hf'
          exact Or.inl rfl
      · intro n' he
        exact Event.noConfusion he
      · intro i f' hf' hlen
        exfalso
        rw [stepEv_analysisTick_files] at hf'
        obtain ⟨hi, _⟩ := List.getElem?_eq_some.mp hf'
        by_cases hg : n ∈ (run tr).analysisIntervals
        · rw [if_pos hg, analysisTickFiles_length] at hi
          omega
        · rw [if_neg hg] at hi
          omega
  | removeEv n =>
      refine ⟨?_, ?_, ?_⟩
      · intro hne
        exact absurd rfl (hne n)
      · intro n' _ f' hf'
        rw [stepEv_remove_files] at hf'
        exact List.mem_of_mem_filter hf'
      · intro i f' hf' hlen
        exfalso
        rw [stepEv_remove_files] at hf'
        obtain ⟨hi, _⟩ := List.getElem?_eq_some.mp hf'
        have hle := List.length_filter_le (fun f => f.name != n) (run tr).files
        unfold removeFile at hi
        omega

/-- Concrete instantiation of `c1_phase_forward`: a single submission followed
by one upload tick. -/
theorem c1_phase_forward_witness :
    SubmittedOnce ([evSubmitA] ++ [evUpTick]) ∧
    ((∀ n, evUpTick ≠ Event.removeEv n) →
      ∀ (i : ℕ) (f f' : UploadedFile),
        (run [evSubmitA]).files[i]? = some f →
        (run ([evSubmitA] ++ [evUpTick])).files[i]? = some f' →
        stepOk f.status f'.status) :=
  ⟨onceSubTick, (c1_phase_forward [evSubmitA] evUpTick vSubTick onceSubTick).1⟩

/-! ### Claim C2 -/

/-- The identifier a timer event fires for, if it is a timer event. -/
def tickName : Event → Option String := fun e =>
  match e with
  | .uploadTick n _ => some n
  | .startAnalysis n => some n
  | .analysisTick n _ _ => some n
  | _ => none

/-- Claim C2 as stated: a ticker callback or delayed transition changes only
the record of its own submission, so no timer event may change two distinct
positions of the mapping at once. -/
def TimersTouchOnlyTheirRecord : Prop :=
  ∀ (tr : List Event) (e : Event), ValidTrace (tr ++ [e]) →
    (tickName e).isSome →
    ∀ (i j : ℕ), i ≠ j →
      (run (tr ++ [e])).files[i]? = (run tr).files[i]? ∨
      (run (tr ++ [e])).files[j]? = (run tr).files[j]?

/-- C2 fails on the code as stated: after submitting `"A"` twice, one firing
of the first submission's upload interval advances both records. -/
theorem c2_counterexample : ¬ TimersTouchOnlyTheirRecord := by
  intro h
  have h01 := h [evSubmitA, evSubmitA] evUpTick vSubAA rfl 0 1 (by omega)
  rcases h01 with hc | hc <;>
    · rw [run_subAA_tick, run_subAA] at hc
      norm_num [UploadedFile.mk.injEq] at hc

/-- C2 amended: a timer event for identifier `n` leaves every record whose
identifier differs from `n` unchanged at its position, and a removal of `n`
keeps every record whose identifier differs from `n`. -/
theorem c2_independent (s : SimState) (n : String) :
    (∀ (inc : ℕ → ℚ) (i : ℕ) (f : UploadedFile),
      s.files[i]? = some f → f.name ≠ n →
      (stepEv (Event.uploadTick n inc) s).files[i]? = some f) ∧
    (∀ (i : ℕ) (f : UploadedFile),
      s.files[i]? = some f → f.name ≠ n →
      (stepEv (Event.startAnalysis n) s).files[i]? = some f) ∧
    (∀ (inc : ℕ → ℚ) (iss : ℕ → ℕ) (i : ℕ) (f : UploadedFile),
      s.files[i]? = some f → f.name ≠ n →
      (stepEv (Event.analysisTick n inc iss) s).files[i]? = some f) ∧
    (∀ f ∈ s.files, f.name ≠ n → f ∈ (stepEv (Event.removeEv n) s).files) := by
  refine ⟨?_, ?_, ?_, ?_⟩
  · intro inc i f hf hname
    rw [stepEv_uploadTick_files]
    by_cases hg : n ∈ s.uploadIntervals
    · rw [if_pos hg, uploadTickFiles_getElem, Nat.zero_add, hf,
        Option.map_some',
        uploadTickFile_eq_self n (inc i) f (fun hc => hname hc.1)]
    · rw [if_neg hg, hf]
  · intro i f hf hname
    rw [stepEv_startAnalysis_files]
    by_cases hg : n ∈ s.pendingTimeouts
    · rw [if_pos hg, List.getElem?_map, hf, Option.map_some',
        startAnalysisFile_eq_self n f hname]
    · rw [if_neg hg, hf]
  · intro inc iss i f hf hname
    rw [stepEv_analysisTick_files]
    by_cases hg : n ∈ s.analysisIntervals
    · rw [if_pos hg, analysisTickFiles_getElem, Nat.zero_add, hf,
        Option.map_some',
        analysisTickFile_eq_self n (inc i) (iss i) f (fun hc => hname hc.1)]
    · rw [if_neg hg, hf]
  · intro f hf hname
    rw [stepEv_remove_files]
    unfold removeFile
    rw [List.mem_filter]
    exact ⟨hf, by simpa using hname⟩

/-- Concrete instantiation of `c2_independent`: a tick for `"A"` leaves the
record of `"B"` untouched. -/
theorem c2_independent_witness :
    (stepEv (Event.uploadTick "A" (fun _ => (10 : ℚ)))
        { files := [{ name := "B", size := mkSize 1 0,
                      status := Phase.uploading, progress := 0,
                      issues := none }],
          uploadIntervals := ["A", "B"], pendingTimeouts := [],
          analysisIntervals := [], uploadedLog := ["B"] }).files[0]? =
      some { name := "B", size := mkSize 1 0, status := Phase.uploading,
             progress := 0, issues := none } :=
  (c2_independent _ "A").1 (fun _ => 10) 0 _ rfl (by decide)

/-! ### Claim C3 -/

theorem run_append (tr₁ tr₂ : List Event) :
    run (tr₁ ++ tr₂) = tr₂.foldl (fun s e => stepEv e s) (run tr₁) := by
  simp [run, List.foldl_append]

theorem stepEv_no_name (s : SimState) (e : Event) (n : String)
    (h : ∀ f ∈ s.files, f.name ≠ n)
    (he : ∀ a b, e ≠ Event.submit n a b) :
    ∀ f ∈ (stepEv e s).files, f.name ≠ n := by
  cases e with
  | submit m a b =>
      intro f hf
      rw [stepEv_submit_files] at hf
      rcases List.mem_append.mp hf with hf | hf
      · exact h f hf
      · have hfm : f = mkFile m a b := by simpa using hf
        subst hfm
        intro hm
        refine he a b ?_
        have hmn : m = n := hm
        rw [hmn]
  | uploadTick m inc =>
      intro f hf
      rw [stepEv_uploadTick_files] at hf
      by_cases hg : m ∈ s.uploadIntervals
      · rw [if_pos hg] at hf
        have hmem : f.name ∈ (uploadTickFiles m inc 0 s.files).map
            (fun f => f.name) := List.mem_map_of_mem _ hf
        rw [uploadTickFiles_map_name] at hmem
        obtain ⟨g, hgm, hge⟩ := List.mem_map.mp hmem
        rw [← hge]
        exact h g hgm
      · rw [if_neg hg] at hf
        exact h f hf
  | startAnalysis m =>
      intro f hf
      rw [stepEv_startAnalysis_files] at hf
      by_cases hg : m ∈ s.pendingTimeouts
      · rw [if_pos hg] at hf
        obtain ⟨g, hgm, hge⟩ := List.mem_map.mp hf
        rw [← hge, startAnalysisFile_name]
        exact h g hgm
      · rw [if_neg hg] at hf
        exact h f hf
  | analysisTick m inc iss =>
      intro f hf
      rw [stepEv_analysisTick_files] at hf
      by_cases hg : m ∈ s.analysisIntervals
      · rw [if_pos hg] at hf
        have hmem : f.name ∈ (analysisTickFiles m inc iss 0 s.files).map
            (fun f => f.name) := List.mem_map_of_mem _ hf
        rw [analysisTickFiles_map_name] at hmem
        obtain ⟨g, hgm, hge⟩ := List.mem_map.mp hmem
        rw [← hge]
        exact h g hgm
      · rw [if_neg hg] at hf
        exact h f hf
  | removeEv m =>
      intro f hf
      rw [stepEv_remove_files] at hf
      exact h f (List.mem_of_mem_filter hf)

theorem foldl_no_name (n : String) :
    ∀ (tr2 : List Event) (s : SimState),
      (∀ f ∈ s.files, f.name ≠ n) →
      (∀ a b, Event.submit n a b ∉ tr2) →
      ∀ f ∈ (tr2.foldl (fun s e => stepEv e s) s).files, f.name ≠ n
  | [], _, h, _ => h
  | e :: tr2, s, h, hsub => by
      rw [List.foldl_cons]
      refine foldl_no_name n tr2 (stepEv e s) ?_ ?_
      · refine stepEv_no_name s e n h ?_
        intro a b he
        refine hsub a b ?_
        rw [← he]
        exact List.mem_cons_self _ _
      · intro a b hmem
        exact hsub a b (List.mem_cons_of_mem _ hmem)

/-- Claim C3 as stated: once `remove(n)` has run, any later firing of a timer
for `n` leaves the mapping unchanged and no record with identifier `n`
exists — with no assumption on what happens between the removal and the
firing. -/
def RemovalSilences : Prop :=
  ∀ (tr1 : List Event) (n : String) (tr2 : List Event) (e : Event),
    ValidTrace (tr1 ++ [Event.removeEv n] ++ tr2 ++ [e]) →
    tickName e = some n →
    (run (tr1 ++ [Event.removeEv n] ++ tr2 ++ [e])).files =
      (run (tr1 ++ [Event.removeEv n] ++ tr2)).files ∧
    ∀ f ∈ (run (tr1 ++ [Event.removeEv n] ++ tr2 ++ [e])).files, f.name ≠ n

/-- C3 fails on the code as stated: the removed record's pending `setTimeout`
survives `removeFile`, and if `"A"` is submitted again it fires on the new
record, changing it. -/
theorem c3_counterexample : ¬ RemovalSilences := by
  intro h
  have hko := (h trPre "A" [evSubmitA] evStartA vGhost rfl).2
  rw [run_ghost_startA] at hko
  exact hko ⟨"A", mkSize 1 0, Phase.analyzing, 0, none⟩ (by simp) rfl

/-- C3 amended: provided the identifier is not submitted again after the
removal, every later firing of a timer for it leaves the mapping unchanged
and no record bears that identifier. -/
theorem c3_removal_silences (tr1 : List Event) (n : String) (tr2 : List Event)
    (e : Event) (hnosub : ∀ a b, Event.submit n a b ∉ tr2)
    (ht : tickName e = some n) :
    (run (tr1 ++ [Event.removeEv n] ++ tr2 ++ [e])).files =
      (run (tr1 ++ [Event.removeEv n] ++ tr2)).files ∧
    ∀ f ∈ (run (tr1 ++ [Event.removeEv n] ++ tr2 ++ [e])).files, f.name ≠ n := by
  have hbase : ∀ f ∈ (run (tr1 ++ [Event.removeEv n])).files, f.name ≠ n := by
    intro f hf
    rw [run_snoc, stepEv_remove_files] at hf
    unfold removeFile at hf
    rw [List.mem_filter] at hf
    simpa using hf.2
  have h2 : ∀ f ∈ (run (tr1 ++ [Event.removeEv n] ++ tr2)).files, f.name ≠ n := by
    rw [run_append]
    exact foldl_no_name n tr2 _ hbase hnosub
  have hfe : (run (tr1 ++ [Event.removeEv n] ++ tr2 ++ [e])).files =
      (run (tr1 ++ [Event.removeEv n] ++ tr2)).files := by
    rw [run_snoc]
    cases e with
    | submit m a b => simp [tickName] at ht
    | uploadTick m inc =>
        have hm : m = n := by simpa [tickName] using ht
        subst hm
        rw [stepEv_uploadTick_files]
        split
        · exact uploadTickFiles_eq_self m inc 0 _ (fun f hf hc => h2 f hf hc.1)
        · rfl
    | startAnalysis m =>
        have hm : m = n := by simpa [tickName] using ht
        subst hm
        rw [stepEv_startAnalysis_files]
        split
        · exact startAnalysisFiles_eq_self m _ (fun f hf => h2 f hf)
        · rfl
    | analysisTick m inc iss =>
        have hm : m = n := by simpa [tickName] using ht
        subst hm
        rw [stepEv_analysisTick_files]
        split
        · exact analysisTickFiles_eq_self m inc iss 0 _
            (fun f hf hc => h2 f hf hc.1)
        · rfl
    | removeEv m => simp [tickName] at ht
  refine ⟨hfe, ?_⟩
  rw [hfe]
  exact h2

/-- Concrete instantiation of `c3_removal_silences`: after removing `"A"`,
its still-live upload interval fires without any observable effect. -/
theorem c3_removal_silences_witness :
    (run ([evSubmitA] ++ [Event.removeEv "A"] ++ [] ++ [evUpTick])).files =
      (run ([evSubmitA] ++ [Event.removeEv "A"] ++ [])).files ∧
    ∀ f ∈ (run ([evSubmitA] ++ [Event.removeEv "A"] ++ [] ++ [evUpTick])).files,
      f.name ≠ "A" :=
  c3_removal_silences [evSubmitA] "A" [] evUpTick (by simp) rfl

/-! ### Claim C4 -/

/-- Claim C4: `submit` appends exactly one record, with phase Uploading and
progress 0, and notifies `onFileUpload` with the identifier as part of the
same step; no timer event ever emits an `onFileUpload` notification. -/
theorem c4_submit_creates (s : SimState) (n : String) (a b : ℕ) :
    (stepEv (Event.submit n a b) s).files =
      s.files ++ [{ name := n, size := mkSize a b, status := Phase.uploading,
                    progress := 0, issues := none }] ∧
    (stepEv (Event.submit n a b) s).uploadedLog = s.uploadedLog ++ [n] ∧
    (∀ (m : String) (inc : ℕ → ℚ),
      (stepEv (Event.uploadTick m inc) s).uploadedLog = s.uploadedLog) ∧
    (∀ m : String,
      (stepEv (Event.startAnalysis m) s).uploadedLog = s.uploadedLog) ∧
    (∀ (m : String) (inc : ℕ → ℚ) (iss : ℕ → ℕ),
      (stepEv (Event.analysisTick m inc iss) s).uploadedLog = s.uploadedLog) ∧
    (∀ m : String,
      (stepEv (Event.removeEv m) s).uploadedLog = s.uploadedLog) := by
  refine ⟨rfl, rfl, ?_, ?_, ?_, fun m => rfl⟩
  · intro m inc
    simp only [stepEv]
    split <;> rfl
  · intro m
    simp only [stepEv]
    split <;> rfl
  · intro m inc iss
    simp only [stepEv]
    split <;> rfl

/-! ### Claim C5 -/

/-- Claim C5 as stated: on every valid trace, `issues` is absent whenever a
record's status is not Completed, and is an integer in `[0, 8)` when it is. -/
def IssueCountDiscipline : Prop :=
  ∀ tr : List Event, ValidTrace tr → ∀ f ∈ (run tr).files,
    (f.status ≠ Phase.completed → f.issues = none) ∧
    (f.status = Phase.completed → ∃ k, f.issues = some k ∧ k < 8)

/-- C5 fails on the code as stated: the duplicate submission's `setTimeout`
drags the completed record of `"A"` back to Analyzing, and the spread keeps
its `issues` field, so an Analyzing record carries `issues = some 3`. -/
theorem c5_counterexample : ¬ IssueCountDiscipline := by
  intro h
  have hm : (⟨"A", mkSize 1 0, Phase.analyzing, 0, some 3⟩ : UploadedFile) ∈
      (run (trDupA ++ [evStartA])).files := by
    rw [run_trDupA_startA]
    simp
  have hko := (h _ vDupA _ hm).1 (by decide)
  simp at hko

/-- C5 amended: provided no identifier is submitted twice, `issues` is `none`
away from Completed, is some integer in `[0, 8)` at Completed, and a record
that is Completed is left exactly unchanged by every further non-removal
event. -/
theorem c5_issue_count (tr : List Event) (e : Event)
    (hv : ValidTrace (tr ++ [e])) (hs : SubmittedOnce (tr ++ [e])) :
    (∀ f ∈ (run tr).files,
      (f.status ≠ Phase.completed → f.issues = none) ∧
      (f.status = Phase.completed → ∃ k, f.issues = some k ∧ k < 8)) ∧
    ((∀ n, e ≠ Event.removeEv n) →
      ∀ (i : ℕ) (f : UploadedFile), (run tr).files[i]? = some f →
        f.status = Phase.completed →
        (run (tr ++ [e])).files[i]? = some f) := by
  obtain ⟨hv1, hve⟩ := validTrace_snoc tr e hv
  have hs1 := submittedOnce_snoc tr e hs
  obtain ⟨hN, hC, hFs, hU, hP, hA⟩ := inv_run tr hv1 hs1
  refine ⟨?_, ?_⟩
  · intro f hf
    obtain ⟨_, _, hbr⟩ := hC f hf
    rcases hbr with ⟨hst, hiss, _⟩ | ⟨hst, hiss, _, _⟩ | ⟨hst, _, hiss, _⟩
    · refine ⟨fun _ => hiss, fun hc => ?_⟩
      rw [hst] at hc
      exact absurd hc (by decide)
    · refine ⟨fun _ => hiss, fun hc => ?_⟩
      rw [hst] at hc
      exact absurd hc (by decide)
    · exact ⟨fun hne => absurd hst hne, fun _ => hiss⟩
  · intro hne i f hf hst
    rw [run_snoc]
    have hfmem : f ∈ (run tr).files := List.getElem?_mem hf
    obtain ⟨_, _, hbr⟩ := hC f hfmem
    rcases hbr with ⟨hst', _, _⟩ | ⟨hst', _, _, _⟩ | ⟨_, _, _, hu0, hp0, ha0⟩
    · rw [hst] at hst'
      exact absurd hst' (by decide)
    · rw [hst] at hst'
      exact absurd hst' (by decide)
    · cases e with
      | submit n a b =>
          rw [stepEv_submit_files]
          obtain ⟨hi, _⟩ := List.getElem?_eq_some.mp hf
          rw [List.getElem?_append_left hi]
          exact hf
      | uploadTick n inc =>
          have hne1 : ¬ (f.name = n ∧ f.status = Phase.uploading) := by
            intro hc
            rw [hst] at hc
            exact absurd hc.2 (by decide)
          rw [stepEv_uploadTick_files]
          by_cases hg : n ∈ (run tr).uploadIntervals
          · rw [if_pos hg, uploadTickFiles_getElem, Nat.zero_add, hf,
              Option.map_some', uploadTickFile_eq_self n (inc i) f hne1]
          · rw [if_neg hg, hf]
      | startAnalysis n =>
          rw [stepEv_startAnalysis_files]
          by_cases hg : n ∈ (run tr).pendingTimeouts
          · have hname : f.name ≠ n := by
              intro hname
              rw [hname] at hp0
              have := List.count_pos_iff.mpr hg
              omega
            rw [if_pos hg, List.getElem?_map, hf, Option.map_some',
              startAnalysisFile_eq_self n f hname]
          · rw [if_neg hg, hf]
      | analysisTick n inc iss =>
          have hne1 : ¬ (f.name = n ∧ f.status = Phase.analyzing) := by
            intro hc
            rw [hst] at hc
            exact absurd hc.2 (by decide)
          rw [stepEv_analysisTick_files]
          by_cases hg : n ∈ (run tr).analysisIntervals
          · rw [if_pos hg, analysisTickFiles_getElem, Nat.zero_add, hf,
              Option.map_some',
              analysisTickFile_eq_self n (inc i) (iss i) f hne1]
          · rw [if_neg hg, hf]
      | removeEv n =>
          exact absurd rfl (hne n)

/-- Concrete instantiation of `c5_issue_count`. -/
theorem c5_issue_count_witness :
    (∀ f ∈ (run [evSubmitA]).files,
      (f.status ≠ Phase.completed → f.issues = none) ∧
      (f.status = Phase.completed → ∃ k, f.issues = some k ∧ k < 8)) ∧
    ((∀ n, evUpTick ≠ Event.removeEv n) →
      ∀ (i : ℕ) (f : UploadedFile), (run [evSubmitA]).files[i]? = some f →
        f.status = Phase.completed →
        (run ([evSubmitA] ++ [evUpTick])).files[i]? = some f) :=
  c5_issue_count [evSubmitA] evUpTick vSubTick onceSubTick

/-! ### Claim C6 -/

/-- Claim C6 as stated: whenever a record changes phase, the last value of
`progress` observed before the transition is exactly 100 — for both active
phases. -/
def FinalProgressHundred : Prop :=
  ∀ (tr : List Event) (e : Event), ValidTrace (tr ++ [e]) →
    (∀ n, e ≠ Event.removeEv n) →
    ∀ (i : ℕ) (f f' : UploadedFile),
      (run tr).files[i]? = some f →
      (run (tr ++ [e])).files[i]? = some f' →
      f.status ≠ f'.status → f.progress = 100

/-- C6 fails on the code as stated: the analysis interval completes the record
in the same step that clamps `progress`, so the last observed Analyzing state
has `progress` 96, not 100. -/
theorem c6_counterexample : ¬ FinalProgressHundred := by
  intro h
  have h0 : (run trClean).files[0]? =
      some ⟨"A", mkSize 1 0, Phase.analyzing, 96, none⟩ := by
    rw [run_trClean]
    rfl
  have h0' : (run (trClean ++ [evAnTick])).files[0]? =
      some ⟨"A", mkSize 1 0, Phase.completed, 100, some 3⟩ := by
    rw [run_trClean_tick]
    rfl
  have hko := h trClean evAnTick vClean (fun n hn => Event.noConfusion hn)
    0 _ _ h0 h0' (by decide)
  norm_num at hko

/-- C6 amended: provided no identifier is submitted twice, a record leaves
Uploading only with `progress` exactly 100, while the Analyzing → Completed
transition happens in the same step that clamps `progress`, so the record
enters Completed with `progress` exactly 100. -/
theorem c6_clamp (tr : List Event) (e : Event)
    (hv : ValidTrace (tr ++ [e])) (hs : SubmittedOnce (tr ++ [e]))
    (hne : ∀ n, e ≠ Event.removeEv n) :
    ∀ (i : ℕ) (f f' : UploadedFile),
      (run tr).files[i]? = some f →
      (run (tr ++ [e])).files[i]? = some f' →
      (f.status = Phase.uploading ∧ f'.status = Phase.analyzing →
        f.progress = 100) ∧
      (f.status = Phase.analyzing ∧ f'.status = Phase.completed →
        f'.progress = 100) := by
  obtain ⟨hv1, hve⟩ := validTrace_snoc tr e hv
  have hs1 := submittedOnce_snoc tr e hs
  obtain ⟨hN, hC, hFs, hU, hP, hA⟩ := inv_run tr hv1 hs1
  rw [run_snoc]
  intro i f f' hf hf'
  cases e with
  | submit n a b =>
      rw [stepEv_submit_files] at hf'
      obtain ⟨hi, _⟩ := List.getElem?_eq_some.mp hf
      rw [List.getElem?_append_left hi, hf] at hf'
      cases hf'
      constructor
      · rintro ⟨h1, h2⟩
        rw [h1] at h2
        exact absurd h2 (by decide)
      · rintro ⟨h1, h2⟩
        rw [h1] at h2
        exact absurd h2 (by decide)
  | uploadTick n inc =>
      rw [stepEv_uploadTick_files] at hf'
      by_cases hg : n ∈ (run tr).uploadIntervals
      · rw [if_pos hg, uploadTickFiles_getElem, Nat.zero_add, hf,
          Option.map_some'] at hf'
        cases hf'
        constructor
        · rintro ⟨h1, h2⟩
          rw [uploadTickFile_status, h1] at h2
          exact absurd h2 (by decide)
        · rintro ⟨h1, h2⟩
          rw [uploadTickFile_status, h1] at h2
          exact absurd h2 (by decide)
      · rw [if_neg hg, hf] at hf'
        cases hf'
        constructor
        · rintro ⟨h1, h2⟩
          rw [h1] at h2
          exact absurd h2 (by decide)
        · rintro ⟨h1, h2⟩
          rw [h1] at h2
          exact absurd h2 (by decide)
  | startAnalysis n =>
      rw [stepEv_startAnalysis_files] at hf'
      by_cases hg : n ∈ (run tr).pendingTimeouts
      · rw [if_pos hg, List.getElem?_map, hf, Option.map_some'] at hf'
        cases hf'
        by_cases hname : f.name = n
        · have hfmem : f ∈ (run tr).files := List.getElem?_mem hf
          obtain ⟨_, _, hbr⟩ := hC f hfmem
          have hpos : 0 < (run tr).pendingTimeouts.count f.name := by
            rw [hname]
            exact List.count_pos_iff.mpr hg
          have hf2 : startAnalysisFile n f =
              { f with status := Phase.analyzing, progress := 0 } := by
            unfold startAnalysisFile
            rw [if_pos hname]
          rw [hf2]
          constructor
          · rintro ⟨h1, _⟩
            rcases hbr with ⟨_, _, ⟨_, _, hp0, _⟩ | ⟨hp100, _, _, _⟩⟩ |
              ⟨_, _, _, _, hp0, _⟩ | ⟨_, _, _, _, hp0, _⟩
            · omega
            · exact hp100
            · omega
            · omega
          · rintro ⟨_, h2⟩
            have h2' : Phase.analyzing = Phase.completed := h2
            exact absurd h2' (by decide)
        · rw [startAnalysisFile_eq_self n f hname]
          constructor
          · rintro ⟨h1, h2⟩
            rw [h1] at h2
            exact absurd h2 (by decide)
          · rintro ⟨h1, h2⟩
            rw [h1] at h2
            exact absurd h2 (by decide)
      · rw [if_neg hg, hf] at hf'
        cases hf'
        constructor
        · rintro ⟨h1, h2⟩
          rw [h1] at h2
          exact absurd h2 (by decide)
        · rintro ⟨h1, h2⟩
          rw [h1] at h2
          exact absurd h2 (by decide)
  | analysisTick n inc iss =>
      rw [stepEv_analysisTick_files] at hf'
      by_cases hg : n ∈ (run tr).analysisIntervals
      · rw [if_pos hg, analysisTickFiles_getElem, Nat.zero_add, hf,
          Option.map_some'] at hf'
        cases hf'
        by_cases hcond : f.name = n ∧ f.status = Phase.analyzing
        · by_cases hcr : 100 ≤ f.progress + inc i
          · have hf2 : analysisTickFile n (inc i) (iss i) f =
                { f with
                    status := Phase.completed, progress := 100,
                    issues := some (iss i) } := by
              unfold analysisTickFile
              rw [if_pos hcond, if_pos hcr]
            rw [hf2]
            constructor
            · rintro ⟨h1, h2⟩
              rw [hcond.2] at h1
              exact absurd h1 (by decide)
            · intro _
              rfl
          · have hf2 : analysisTickFile n (inc i) (iss i) f =
                { f with progress := f.progress + inc i } := by
              unfold analysisTickFile
              rw [if_pos hcond, if_neg hcr]
            rw [hf2]
            constructor
            · rintro ⟨h1, h2⟩
              have h2' : f.status = Phase.analyzing := h2
              rw [h1] at h2'
              exact absurd h2' (by decide)
            · rintro ⟨h1, h2⟩
              have h2' : f.status = Phase.completed := h2
              rw [h1] at h2'
              exact absurd h2' (by decide)
        · rw [analysisTickFile_eq_self n (inc i) (iss i) f hcond]
          constructor
          · rintro ⟨h1, h2⟩
            rw [h1] at h2
            exact absurd h2 (by decide)
          · rintro ⟨h1, h2⟩
            rw [h1] at h2
            exact absurd h2 (by decide)
      · rw [if_neg hg, hf] at hf'
        cases hf'
        constructor
        · rintro ⟨h1, h2⟩
          rw [h1] at h2
          exact absurd h2 (by decide)
        · rintro ⟨h1, h2⟩
          rw [h1] at h2
          exact absurd h2 (by decide)
  | removeEv n =>
      exact absurd rfl (hne n)

/-- Concrete instantiation of `c6_clamp`: the record of `"A"` leaves Uploading
with progress exactly 100 when its `setTimeout` fires after `trPre`. -/
theorem c6_clamp_witness :
    ((⟨"A", mkSize 1 0, Phase.uploading, 100, none⟩ : UploadedFile).status =
        Phase.uploading ∧
      (⟨"A", mkSize 1 0, Phase.analyzing, 0, none⟩ : UploadedFile).status =
        Phase.analyzing →
      (⟨"A", mkSize 1 0, Phase.uploading, 100, none⟩ :
        UploadedFile).progress = 100) ∧
    ((⟨"A", mkSize 1 0, Phase.uploading, 100, none⟩ : UploadedFile).status =
        Phase.analyzing ∧
      (⟨"A", mkSize 1 0, Phase.analyzing, 0, none⟩ : UploadedFile).status =
        Phase.completed →
      (⟨"A", mkSize 1 0, Phase.analyzing, 0, none⟩ :
        UploadedFile).progress = 100) :=
  c6_clamp trPre evStartA vPre oncePre (fun n hn => Event.noConfusion hn)
    0 _ _ (by rw [run_trPre]; rfl) (by rw [run_trPre_startA]; rfl)

/-! ### Claim C7 -/

/-- Claim C7 as stated: within a single phase, a record's progress never
decreases across any event. -/
def ProgressMonotone : Prop :=
  ∀ (tr : List Event) (e : Event), ValidTrace (tr ++ [e]) →
    (∀ n, e ≠ Event.removeEv n) →
    ∀ (i : ℕ) (f f' : UploadedFile),
      (run tr).files[i]? = some f →
      (run (tr ++ [e])).files[i]? = some f' →
      f.status = f'.status → f.progress ≤ f'.progress

/-- C7 fails on the code as stated: after remove and resubmit of `"A"`, the
stale `setTimeout` of the removed record fires while the new record is
Analyzing at progress 48 and resets it to Analyzing at progress 0. -/
theorem c7_counterexample : ¬ ProgressMonotone := by
  intro h
  have h0 : (run trStale).files[0]? =
      some ⟨"A", mkSize 1 0, Phase.analyzing, 48, none⟩ := by
    rw [run_trStale]
    rfl
  have h0' : (run (trStale ++ [evStartA])).files[0]? =
      some ⟨"A", mkSize 1 0, Phase.analyzing, 0, none⟩ := by
    rw [run_trStale_startA]
    rfl
  have hko := h trStale evStartA vStale (fun n hn => Event.noConfusion hn)
    0 _ _ h0 h0' rfl
  norm_num at hko

/-- C7 amended: provided no identifier is submitted twice, a record's progress
never decreases while its phase does not change. -/
theorem c7_monotone (tr : List Event) (e : Event)
    (hv : ValidTrace (tr ++ [e])) (hs : SubmittedOnce (tr ++ [e]))
    (hne : ∀ n, e ≠ Event.removeEv n) :
    ∀ (i : ℕ) (f f' : UploadedFile),
      (run tr).files[i]? = some f →
      (run (tr ++ [e])).files[i]? = some f' →
      f.status = f'.status → f.progress ≤ f'.progress := by
  obtain ⟨hv1, hve⟩ := validTrace_snoc tr e hv
  have hs1 := submittedOnce_snoc tr e hs
  obtain ⟨hN, hC, hFs, hU, hP, hA⟩ := inv_run tr hv1 hs1
  rw [run_snoc]
  intro i f f' hf hf'
  cases e with
  | submit n a b =>
      rw [stepEv_submit_files] at hf'
      obtain ⟨hi, _⟩ := List.getElem?_eq_some.mp hf
      rw [List.getElem?_append_left hi, hf] at hf'
      cases hf'
      exact fun _ => le_refl _
  | uploadTick n inc =>
      rw [stepEv_uploadTick_files] at hf'
      by_cases hg : n ∈ (run tr).uploadIntervals
      · rw [if_pos hg, uploadTickFiles_getElem, Nat.zero_add, hf,
          Option.map_some'] at hf'
        cases hf'
        intro _
        by_cases hcond : f.name = n ∧ f.status = Phase.uploading
        · by_cases hcr : 100 ≤ f.progress + inc i
          · have hf2 : uploadTickFile n (inc i) f =
                { f with progress := 100 } := by
              unfold uploadTickFile
              rw [if_pos hcond, if_pos hcr]
            rw [hf2]
            obtain ⟨_, h100, _⟩ := hC f (List.getElem?_mem hf)
            exact h100
          · have hf2 : uploadTickFile n (inc i) f =
                { f with progress := f.progress + inc i } := by
              unfold uploadTickFile
              rw [if_pos hcond, if_neg hcr]
            rw [hf2]
            exact le_add_of_nonneg_right (hve i).1
        · rw [uploadTickFile_eq_self n (inc i) f hcond]
      · rw [if_neg hg, hf] at hf'
        cases hf'
        exact fun _ => le_refl _
  | startAnalysis n =>
      rw [stepEv_startAnalysis_files] at hf'
      by_cases hg : n ∈ (run tr).pendingTimeouts
      · rw [if_pos hg, List.getElem?_map, hf, Option.map_some'] at hf'
        cases hf'
        by_cases hname : f.name = n
        · have hfmem : f ∈ (run tr).files := List.getElem?_mem hf
          obtain ⟨_, _, hbr⟩ := hC f hfmem
          have hpos : 0 < (run tr).pendingTimeouts.count f.name := by
            rw [hname]
            exact List.count_pos_iff.mpr hg
          have hf2 : startAnalysisFile n f =
              { f with status := Phase.analyzing, progress := 0 } := by
            unfold startAnalysisFile
            rw [if_pos hname]
          rw [hf2]
          intro hstatus
          have hstatus' : f.status = Phase.analyzing := hstatus
          rcases hbr with ⟨hst, _, ⟨_, _, hp0, _⟩ | ⟨_, _, _, _⟩⟩ |
            ⟨_, _, _, _, hp0, _⟩ | ⟨_, _, _, _, hp0, _⟩
          · omega
          · rw [hstatus'] at hst
            exact absurd hst (by decide)
          · omega
          · omega
        · rw [startAnalysisFile_eq_self n f hname]
          exact fun _ => le_refl _
      · rw [if_neg hg, hf] at hf'
        cases hf'
        exact fun _ => le_refl _
  | analysisTick n inc iss =>
      rw [stepEv_analysisTick_files] at hf'
      by_cases hg : n ∈ (run tr).analysisIntervals
      · rw [if_pos hg, analysisTickFiles_getElem, Nat.zero_add, hf,
          Option.map_some'] at hf'
        cases hf'
        by_cases hcond : f.name = n ∧ f.status = Phase.analyzing
        · by_cases hcr : 100 ≤ f.progress + inc i
          · have hf2 : analysisTickFile n (inc i) (iss i) f =
                { f with
                    status := Phase.completed, progress := 100,
                    issues := some (iss i) } := by
              unfold analysisTickFile
              rw [if_pos hcond, if_pos hcr]
            rw [hf2]
            intro hstatus
            have hstatus' : f.status = Phase.completed := hstatus
            rw [hcond.2] at hstatus'
            exact absurd hstatus' (by decide)
          · have hf2 : analysisTickFile n (inc i) (iss i) f =
                { f with progress := f.progress + inc i } := by
              unfold analysisTickFile
              rw [if_pos hcond, if_neg hcr]
            rw [hf2]
            exact fun _ => le_add_of_nonneg_right ((hve.1 i).1)
        · rw [analysisTickFile_eq_self n (inc i) (iss i) f hcond]
          exact fun _ => le_refl _
      · rw [if_neg hg, hf] at hf'
        cases hf'
        exact fun _ => le_refl _
  | removeEv n =>
      exact absurd rfl (hne n)

/-- Concrete instantiation of `c7_monotone`: one upload tick takes the record
of `"A"` from progress 0 to progress 29 within the Uploading phase. -/
theorem c7_monotone_witness :
    (⟨"A", mkSize 1 0, Phase.uploading, 0, none⟩ : UploadedFile).progress ≤
      (⟨"A", mkSize 1 0, Phase.uploading, 29, none⟩ : UploadedFile).progress :=
  c7_monotone [evSubmitA] evUpTick vSubTick onceSubTick
    (fun n hn => Event.noConfusion hn) 0 _ _
    (by rw [run_subA]; rfl) (by rw [run_subA_tick]; rfl) rfl

/-! ### Claim C8 -/

theorem uploadTickFiles_map_size (n : String) (inc : ℕ → ℚ) :
    ∀ (i : ℕ) (fs : List UploadedFile),
      (uploadTickFiles n inc i fs).map (fun f => f.size) =
        fs.map (fun f => f.size)
  | _, [] => rfl
  | i, f :: fs => by
      rw [uploadTickFiles, List.map_cons, List.map_cons, uploadTickFile_size,
        uploadTickFiles_map_size n inc (i + 1) fs]

theorem analysisTickFiles_map_size (n : String) (inc : ℕ → ℚ) (iss : ℕ → ℕ) :
    ∀ (i : ℕ) (fs : List UploadedFile),
      (analysisTickFiles n inc iss i fs).map (fun f => f.size) =
        fs.map (fun f => f.size)
  | _, [] => rfl
  | i, f :: fs => by
      rw [analysisTickFiles, List.map_cons, List.map_cons,
        analysisTickFile_size, analysisTickFiles_map_size n inc iss (i + 1) fs]

theorem startAnalysisFiles_map_size (n : String) (fs : List UploadedFile) :
    (fs.map (startAnalysisFile n)).map (fun f => f.size) =
      fs.map (fun f => f.size) := by
  rw [List.map_map]
  exact List.map_congr_left fun f _ => startAnalysisFile_size n f

/-- Claim C8: the size label is assigned at creation as the string `a.bMB`
with `a` in `[1, 5]` and `b` in `[0, 8]` — so its numeric value, the two-digit
value `10 * a + b` in tenths, lies within the claimed 1.0 to 5.9 span — and no
later tick, transition or removal ever changes any record's size label. -/
theorem c8_size_label (s : SimState) (n : String) (a b : ℕ)
    (ha1 : 1 ≤ a) (ha5 : a ≤ 5) (hb : b ≤ 8) :
    ((stepEv (Event.submit n a b) s).files =
        s.files ++ [{ name := n, size := mkSize a b,
                      status := Phase.uploading, progress := 0,
                      issues := none }] ∧
      mkSize a b = toString a ++ "." ++ toString b ++ "MB" ∧
      10 ≤ 10 * a + b ∧ 10 * a + b ≤ 59) ∧
    (∀ (m : String) (inc : ℕ → ℚ),
      (stepEv (Event.uploadTick m inc) s).files.map (fun f => f.size) =
        s.files.map (fun f => f.size)) ∧
    (∀ m : String,
      (stepEv (Event.startAnalysis m) s).files.map (fun f => f.size) =
        s.files.map (fun f => f.size)) ∧
    (∀ (m : String) (inc : ℕ → ℚ) (iss : ℕ → ℕ),
      (stepEv (Event.analysisTick m inc iss) s).files.map (fun f => f.size) =
        s.files.map (fun f => f.size)) ∧
    ((stepEv (Event.removeEv n) s).files.map (fun f => f.size)).Sublist
      (s.files.map (fun f => f.size)) := by
  refine ⟨⟨rfl, rfl, by omega, by omega⟩, ?_, ?_, ?_, ?_⟩
  · intro m inc
    rw [stepEv_uploadTick_files]
    split
    · exact uploadTickFiles_map_size m inc 0 s.files
    · rfl
  · intro m
    rw [stepEv_startAnalysis_files]
    split
    · exact startAnalysisFiles_map_size m s.files
    · rfl
  · intro m inc iss
    rw [stepEv_analysisTick_files]
    split
    · exact analysisTickFiles_map_size m inc iss 0 s.files
    · rfl
  · rw [stepEv_remove_files]
    exact List.Sublist.map _ (List.filter_sublist s.files)

/-- Concrete instantiation of `c8_size_label`. -/
theorem c8_size_label_witness :
    (stepEv (Event.submit "A" 1 0) initState).files =
        initState.files ++ [⟨"A", mkSize 1 0, Phase.uploading, 0, none⟩] ∧
      mkSize 1 0 = toString 1 ++ "." ++ toString 0 ++ "MB" ∧
      10 ≤ 10 * 1 + 0 ∧ 10 * 1 + 0 ≤ 59 :=
  (c8_size_label initState "A" 1 0 (by omega) (by omega) (by omega)).1

/-! ### Claim C9 -/

/-- Claim C9: `removeFile` deletes exactly the records whose identifier
matches, keeps every other record, is a no-op (not an error) when no record
matches — in particular for a never-submitted identifier — and is
idempotent. -/
theorem c9_remove (s : SimState) (n : String) :
    (∀ f ∈ s.files, f.name ≠ n → f ∈ (stepEv (Event.removeEv n) s).files) ∧
    (∀ f ∈ (stepEv (Event.removeEv n) s).files, f ∈ s.files ∧ f.name ≠ n) ∧
    ((∀ f ∈ s.files, f.name ≠ n) → stepEv (Event.removeEv n) s = s) ∧
    stepEv (Event.removeEv n) (stepEv (Event.removeEv n) s) =
      stepEv (Event.removeEv n) s := by
  have hmem : ∀ f : UploadedFile, ∀ fs : List UploadedFile,
      f ∈ removeFile n fs ↔ f ∈ fs ∧ f.name ≠ n := by
    intro f fs
    unfold removeFile
    rw [List.mem_filter]
    simp
  refine ⟨?_, ?_, ?_, ?_⟩
  · intro f hf hname
    rw [stepEv_remove_files, hmem]
    exact ⟨hf, hname⟩
  · intro f hf
    rw [stepEv_remove_files, hmem] at hf
    exact hf
  · intro h
    show { s with files := removeFile n s.files } = s
    have hfe : removeFile n s.files = s.files := by
      unfold removeFile
      rw [List.filter_eq_self]
      intro f hf
      simpa using h f hf
    rw [hfe]
  · show { s with files := removeFile n (removeFile n s.files) } =
      { s with files := removeFile n s.files }
    have hfe : removeFile n (removeFile n s.files) = removeFile n s.files := by
      unfold removeFile
      rw [List.filter_eq_self]
      intro f hf
      exact (List.mem_filter.mp hf).2
    rw [hfe]

/-- Concrete instantiation of `c9_remove`: removing the never-submitted
identifier `"ghost.fig"` is a no-op. -/
theorem c9_remove_witness :
    stepEv (Event.removeEv "ghost.fig")
        { files := [{ name := "A", size := mkSize 1 0,
                      status := Phase.uploading, progress := 0,
                      issues := none }],
          uploadIntervals := ["A"], pendingTimeouts := [],
          analysisIntervals := [], uploadedLog := ["A"] } =
      { files := [{ name := "A", size := mkSize 1 0,
                    status := Phase.uploading, progress := 0,
                    issues := none }],
        uploadIntervals := ["A"], pendingTimeouts := [],
        analysisIntervals := [], uploadedLog := ["A"] } :=
  (c9_remove _ "ghost.fig").2.2.1 (by
    intro f hf
    have hfa : f = ⟨"A", mkSize 1 0, Phase.uploading, 0, none⟩ := by
      simpa using hf
    subst hfa
    decide)

/-! ### Claim C10 -/

/-- Claim C10: a firing of an upload or analysis interval whose identifier
matches no record in the required phase leaves every record in the mapping
unchanged — the per-record identifier-and-phase guard makes orphaned interval
firings no-ops on the mapping. -/
theorem c10_orphan_tick (s : SimState) (n : String) :
    (∀ inc : ℕ → ℚ,
      (∀ f ∈ s.files, ¬ (f.name = n ∧ f.status = Phase.uploading)) →
      (stepEv (Event.uploadTick n inc) s).files = s.files) ∧
    (∀ (inc : ℕ → ℚ) (iss : ℕ → ℕ),
      (∀ f ∈ s.files, ¬ (f.name = n ∧ f.status = Phase.analyzing)) →
      (stepEv (Event.analysisTick n inc iss) s).files = s.files) := by
  constructor
  · intro inc h
    rw [stepEv_uploadTick_files]
    split
    · exact uploadTickFiles_eq_self n inc 0 s.files h
    · rfl
  · intro inc iss h
    rw [stepEv_analysisTick_files]
    split
    · exact analysisTickFiles_eq_self n inc iss 0 s.files h
    · rfl

/-- Concrete instantiation of `c10_orphan_tick`: an upload interval for the
removed `"A"` fires while only a record of `"B"` is in the mapping. -/
theorem c10_orphan_tick_witness :
    (stepEv (Event.uploadTick "A" (fun _ => (10 : ℚ)))
        { files := [{ name := "B", size := mkSize 1 0,
                      status := Phase.uploading, progress := 0,
                      issues := none }],
          uploadIntervals := ["A", "B"], pendingTimeouts := [],
          analysisIntervals := [], uploadedLog := ["B"] }).files =
      [{ name := "B", size := mkSize 1 0, status := Phase.uploading,
         progress := 0, issues := none }] :=
  (c10_orphan_tick _ "A").1 (fun _ => 10) (by
    intro f hf
    have hfb : f = ⟨"B", mkSize 1 0, Phase.uploading, 0, none⟩ := by
      simpa using hf
    subst hfb
    intro hc
    exact absurd hc.1 (by decide))

